import Mathlib

/-!
# Verification of the LJQO join-order optimizers (SDP and TwoPO)

Shallow embedding of the algorithmic core of the `ljqo` PostgreSQL plugin:
the SDP optimizer (`src/sdp/sdp_register.c`) and the TwoPO optimizer
(`twopo.c`).  `RelOptInfo*` values are modelled by an abstract type `U`;
`make_join_rel` (which returns `NULL` when the two relations cannot be
joined) becomes a pure `join : U → U → Option U`, which is faithful because
`make_join_rel` is deterministic for fixed planner state; `Cost` (a C
`double`) is modelled by `ℚ`; a C loop whose termination is not syntactic
is modelled with an explicit fuel argument sized so that it never runs out
on the loop's actual iteration count.
-/

namespace LJQO

/-! ## SDP: DP phase (`dp_phase`, `sdp_register.c:2056-2152`) -/

/-- First `some` entry of a list of options.  Mirrors the DP-phase cell rule
(`sdp_register.c:2113-2119`): the first successful join found for a cell is
kept; later successful splits do not overwrite it. -/
def firstSome {U : Type} : List (Option U) → Option U
  | [] => none
  | some a :: _ => some a
  | none :: rest => firstSome rest

/-- One split attempt of the DP phase (`sdp_register.c:2102-2121`):
`rel1 = matrix[i][p]`, `rel2 = matrix[level-i-1][p+i+1]`, and
`make_join_rel` is attempted only when both cells are filled. -/
def dpSplit {U : Type} (join : U → U → Option U) : Option U → Option U → Option U
  | some r1, some r2 => join r1 r2
  | _, _ => none

/-- The DP-phase triangular matrix, built level by level exactly as the C
loop does (`for (level = 0; level < nrels; level++)`): entry `level` of the
returned list is row `matrix[level]`, viewed as a function of the start
position `p`.  Row 0 is the input sequence (`matrix[0] = sequence`,
`sdp_register.c:2081`); row `l+1` tries the splits `i = level-1, ..., 0`
(`for (i = level-1; i >= 0; i--)`) and keeps the first successful join. -/
def dpTable {U : Type} (join : U → U → Option U) (seq : List U) :
    ℕ → List (ℕ → Option U)
  | 0 => [fun p => seq[p]?]
  | l + 1 =>
      let t := dpTable join seq l
      t ++ [fun p => firstSome ((List.range (l + 1)).reverse.map fun i =>
        dpSplit join (t.getD i (fun _ => none) p)
          (t.getD (l - i) (fun _ => none) (p + i + 1)))]

/-- Cell `matrix[level][p]` of the DP-phase matrix. -/
def dpCell {U : Type} (join : U → U → Option U) (seq : List U)
    (level p : ℕ) : Option U :=
  (dpTable join seq level).getD level (fun _ => none) p

/-- The DP phase's result is the final cell `matrix[N-1][0]`
(`sdp_register.c:2135-2140`); `none` models the fatal
`elog(ERROR, "SDP: DP-phase could not generate any complete plan")`. -/
def dp_phase {U : Type} (join : U → U → Option U) (seq : List U) : Option U :=
  dpCell join seq (seq.length - 1) 0

theorem dpTable_length {U : Type} (join : U → U → Option U) (seq : List U) :
    ∀ l, (dpTable join seq l).length = l + 1 := by
  intro l
  induction l with
  | zero => rfl
  | succ l ih => simp [dpTable, ih]

theorem dpTable_getD_succ {U : Type} (join : U → U → Option U) (seq : List U)
    (l i : ℕ) (hi : i ≤ l) :
    (dpTable join seq (l + 1)).getD i (fun _ => none) =
      (dpTable join seq l).getD i (fun _ => none) := by
  rw [dpTable]
  exact List.getD_append _ _ _ i (by rw [dpTable_length]; omega)

theorem dpTable_getD_stable {U : Type} (join : U → U → Option U) (seq : List U) :
    ∀ k l i, i ≤ l →
      (dpTable join seq (l + k)).getD i (fun _ => none) =
        (dpTable join seq l).getD i (fun _ => none) := by
  intro k
  induction k with
  | zero => intro l i _; rfl
  | succ k ih =>
    intro l i hi
    have : l + (k + 1) = (l + k) + 1 := by omega
    rw [this, dpTable_getD_succ join seq (l + k) i (by omega), ih l i hi]

theorem dpCell_zero {U : Type} (join : U → U → Option U) (seq : List U) (p : ℕ) :
    dpCell join seq 0 p = seq[p]? := rfl

/-- Unfolding rule for a cell at level `l + 1`: the first successful split,
tried in the C iteration order `i = l, l-1, ..., 0`. -/
theorem dpCell_succ {U : Type} (join : U → U → Option U) (seq : List U)
    (l p : ℕ) :
    dpCell join seq (l + 1) p =
      firstSome ((List.range (l + 1)).reverse.map fun i =>
        dpSplit join (dpCell join seq i p) (dpCell join seq (l - i) (p + i + 1))) := by
  unfold dpCell
  conv_lhs => rw [dpTable]
  rw [List.getD_append_right _ _ _ _ (by rw [dpTable_length])]
  have hlen : (dpTable join seq l).length = l + 1 := dpTable_length join seq l
  rw [hlen]
  simp only [Nat.sub_self, List.getD_cons_zero]
  congr 1
  apply List.map_congr_left
  intro i hi
  have hil : i ≤ l := by
    have := List.mem_range.mp (List.mem_reverse.mp hi)
    omega
  have h1 : (dpTable join seq l).getD i (fun _ => none) =
      (dpTable join seq i).getD i (fun _ => none) := by
    have := dpTable_getD_stable join seq (l - i) i i le_rfl
    rw [show i + (l - i) = l by omega] at this
    exact this
  have h2 : (dpTable join seq l).getD (l - i) (fun _ => none) =
      (dpTable join seq (l - i)).getD (l - i) (fun _ => none) := by
    have := dpTable_getD_stable join seq i (l - i) (l - i) le_rfl
    rw [show l - i + i = l by omega] at this
    exact this
  rw [h1, h2]

theorem firstSome_eq_none_iff {U : Type} (xs : List (Option U)) :
    firstSome xs = none ↔ ∀ x ∈ xs, x = none := by
  induction xs with
  | nil => simp [firstSome]
  | cons x rest ih =>
    cases x with
    | none => simpa [firstSome] using ih
    | some a => simp [firstSome]

theorem firstSome_isSome_iff {U : Type} (xs : List (Option U)) :
    (firstSome xs).isSome ↔ ∃ x ∈ xs, x.isSome := by
  induction xs with
  | nil => simp [firstSome]
  | cons x rest ih =>
    cases x with
    | none => simpa [firstSome] using ih
    | some a => simp [firstSome]

theorem firstSome_eq_some {U : Type} {xs : List (Option U)} {u : U}
    (h : firstSome xs = some u) : some u ∈ xs := by
  induction xs with
  | nil => simp [firstSome] at h
  | cons x rest ih =>
    cases x with
    | none => exact List.mem_cons_of_mem _ (ih (by simpa [firstSome] using h))
    | some a =>
      simp only [firstSome] at h
      exact h ▸ List.mem_cons_self _ _

theorem dpSplit_isSome_iff {U : Type} (join : U → U → Option U)
    (a b : Option U) :
    (dpSplit join a b).isSome ↔
      ∃ r1 r2, a = some r1 ∧ b = some r2 ∧ (join r1 r2).isSome := by
  cases a with
  | none => simp [dpSplit]
  | some r1 =>
    cases b with
    | none => simp [dpSplit]
    | some r2 => simp [dpSplit]

/-- Claim C1: for every input sequence of `N ≥ 2` units, the DP phase has
`matrix[0][p] = sequence[p]`; a cell `matrix[level][p]` (`level ≥ 1`) holds
a successfully joined unit if and only if some split `i ∈ 0..level-1` has
both `matrix[i][p]` and `matrix[level-i-1][p+i+1]` defined and the join
evaluator joins them successfully; and the DP phase's result is
`matrix[N-1][0]`. -/
theorem dp_phase_matrix {U : Type} (join : U → U → Option U) (seq : List U)
    (hN : 2 ≤ seq.length) :
    (∀ p, dpCell join seq 0 p = seq[p]?) ∧
    (∀ l p, (dpCell join seq (l + 1) p).isSome ↔
        ∃ i ≤ l, ∃ r1 r2, dpCell join seq i p = some r1 ∧
          dpCell join seq (l - i) (p + i + 1) = some r2 ∧ (join r1 r2).isSome) ∧
    dp_phase join seq = dpCell join seq (seq.length - 1) 0 := by
  refine ⟨fun p => rfl, fun l p => ?_, rfl⟩
  rw [dpCell_succ, firstSome_isSome_iff]
  constructor
  · rintro ⟨x, hx, hxs⟩
    obtain ⟨i, hmem, rfl⟩ := List.mem_map.mp hx
    have hil : i ≤ l := by
      have := List.mem_range.mp (List.mem_reverse.mp hmem)
      omega
    obtain ⟨r1, r2, h1, h2, hj⟩ := (dpSplit_isSome_iff join _ _).mp hxs
    exact ⟨i, hil, r1, r2, h1, h2, hj⟩
  · rintro ⟨i, hil, r1, r2, h1, h2, hj⟩
    refine ⟨dpSplit join (dpCell join seq i p) (dpCell join seq (l - i) (p + i + 1)),
      ?_, ?_⟩
    · apply List.mem_map.mpr
      exact ⟨i, List.mem_reverse.mpr (List.mem_range.mpr (by omega)), rfl⟩
    · rw [h1, h2]
      exact hj

/-- Witness for C1 at a concrete input: the sequence `[1, 2, 3]` with the
always-successful join `a + b`. -/
theorem dp_phase_matrix_witness :
    2 ≤ ([1, 2, 3] : List ℕ).length ∧
      dp_phase (fun a b : ℕ => some (a + b)) [1, 2, 3] =
        dpCell (fun a b : ℕ => some (a + b)) [1, 2, 3] 2 0 :=
  ⟨by decide, (dp_phase_matrix (fun a b : ℕ => some (a + b)) [1, 2, 3] (by decide)).2.2⟩

/-! ## SDP: S phase (`s_phase`, `sdp_register.c:1920-2037`) -/

/-- The `end_loop` computation of `s_phase` (`sdp_register.c:1939-1953`):
`end_loop = nrels * sdp_iteration_slope + sdp_iteration_const`, replaced by
`sdp_min_iterations` when below it, otherwise by `sdp_max_iterations` when
above it. -/
def s_phase_end_loop (slope konst mn mx nrels : ℤ) : ℤ :=
  let e := nrels * slope + konst
  if e < mn then mn else if e > mx then mx else e

/-- The samples examined by the S-phase main loop
(`for (loop = 0; loop < end_loop; loop++)`, `sdp_register.c:1958`).
`sample k` is the outcome of iteration `k` — the cheapest cost of the
sample built by `s_phase_get_a_sample` together with its join sequence
(`cur_rels`) — abstracting that function's randomized construction. -/
def s_phase_samples {U : Type} (sample : ℕ → ℚ × List U)
    (slope konst mn mx nrels : ℤ) : List (ℚ × List U) :=
  (List.range (s_phase_end_loop slope konst mn mx nrels).toNat).map sample

/-- The minimum tracking of the S-phase loop (`sdp_register.c:1986-1999`):
a sample replaces the tracked minimum when no minimum was recorded yet
(`!min_cost`, i.e. `min_cost = 0`) or the sample is strictly cheaper. -/
def s_phase_fold {U : Type} (samples : List (ℚ × List U)) : ℚ × List U :=
  samples.foldl (fun m s => if m.1 = 0 ∨ m.1 > s.1 then s else m) (0, [])

/-- Tracked minimum cost and winning sequence after the S phase. -/
def s_phase_result {U : Type} (sample : ℕ → ℚ × List U)
    (slope konst mn mx nrels : ℤ) : ℚ × List U :=
  s_phase_fold (s_phase_samples sample slope konst mn mx nrels)

/-- Claim C3: for every `N` and every boundary-validated configuration
(`sdp_min_iterations ≥ 2` and `sdp_max_iterations ≥ 10` are the GUC minima
from `sdp.h`), the S phase performs exactly
`clamp(slope*N + const, min, max)` sampling iterations: the clamp value is
positive and the sample loop runs exactly that many times. -/
theorem s_phase_iteration_count {U : Type} (sample : ℕ → ℚ × List U)
    (slope konst mn mx nrels : ℤ) (hmn : 2 ≤ mn) (hmx : 10 ≤ mx) :
    ((s_phase_samples sample slope konst mn mx nrels).length : ℤ)
        = s_phase_end_loop slope konst mn mx nrels ∧
      0 < s_phase_end_loop slope konst mn mx nrels := by
  have hpos : 0 < s_phase_end_loop slope konst mn mx nrels := by
    unfold s_phase_end_loop
    dsimp only
    split
    · omega
    · split <;> omega
  refine ⟨?_, hpos⟩
  simp [s_phase_samples, Int.toNat_of_nonneg hpos.le]

/-- Witness for C3 at a concrete configuration (the shipped defaults
`slope = 5`, `const = 250`, `min = 50`, `max = 2^31 - 1`) and `N = 10`. -/
theorem s_phase_iteration_count_witness :
    (2 ≤ (50 : ℤ) ∧ 10 ≤ (2147483647 : ℤ)) ∧
      ((s_phase_samples (fun k => ((k : ℚ), ([] : List ℕ))) 5 250 50 2147483647 10).length : ℤ)
        = s_phase_end_loop 5 250 50 2147483647 10 :=
  ⟨⟨by norm_num, by norm_num⟩,
    (s_phase_iteration_count (fun k => ((k : ℚ), ([] : List ℕ))) 5 250 50 2147483647 10
      (by norm_num) (by norm_num)).1⟩

/-! ## SDP: reconstruction fallback and error taxonomy
(`sdp`, `sdp_register.c:1333-1387`; `reconstruct_s_phase_rel`,
`sdp_register.c:2164-2216`) -/

/-- Error taxonomy of `sdp`: the two `elog(ERROR, ...)` aborts
(`sdp_register.c:2002-2004`: no valid sample; `sdp_register.c:2135-2137`:
empty final DP cell). -/
inductive SdpError : Type
  | noValidSample : SdpError
  | dpDeadEnd : SdpError
deriving DecidableEq

/-- One collapse step of `reconstruct_s_phase_rel`
(`sdp_register.c:2183-2205`): scanning from the front, join the first
adjacent pair that `make_join_rel` accepts, replacing the pair by the
joined unit (the C code then restarts its scan with `i = 0`). -/
def reconStep {U : Type} (join : U → U → Option U) : List U → Option (List U)
  | [] => none
  | [_] => none
  | x :: y :: rest =>
      match join x y with
      | some z => some (z :: rest)
      | none => (reconStep join (y :: rest)).map fun l => x :: l

theorem reconStep_length {U : Type} (join : U → U → Option U) :
    ∀ l l' : List U, reconStep join l = some l' → l'.length + 1 = l.length := by
  intro l
  induction l with
  | nil => intro l' h; simp [reconStep] at h
  | cons x rest ih =>
    intro l' h
    match rest with
    | [] => simp [reconStep] at h
    | y :: rest' =>
      rw [reconStep] at h
      cases hj : join x y with
      | some z => rw [hj] at h; cases h; simp
      | none =>
        rw [hj] at h
        simp only [Option.map_eq_some'] at h
        obtain ⟨l2, h2, rfl⟩ := h
        have := ih l2 h2
        simp at this ⊢
        omega

/-- The collapsing loop of `reconstruct_s_phase_rel`
(`sdp_register.c:2183-2205`): repeat until a single unit remains.  Each
successful step shortens the vector by one, so `fuel = length` never runs
out; when no adjacent pair at all can be joined the C code reads past the
end of the vector, which is modelled by `none`. -/
def reconLoopF {U : Type} (join : U → U → Option U) : ℕ → List U → Option U
  | _, [] => none
  | _, [x] => some x
  | 0, _ :: _ :: _ => none
  | fuel + 1, x :: y :: rest =>
      match reconStep join (x :: y :: rest) with
      | some l' => reconLoopF join fuel l'
      | none => none

/-- `reconstruct_s_phase_rel` over a sequence of units. -/
def reconLoop {U : Type} (join : U → U → Option U) (l : List U) : Option U :=
  reconLoopF join l.length l

/-- The `sdp` control flow after the S phase, as a function of the S-phase
outcome `m` (tracked minimum cost, winning sequence): abort when no valid
sample was recorded (`min_cost == 0`, `sdp_register.c:2002-2004`); run the
DP phase over the winning sequence, abort when the final cell is empty;
finally, when the S-phase cost beats the DP result
(`sdp_register.c:1364-1376`), reconstruct the S-phase plan and keep
whichever of the two plans is cheaper. -/
def sdp_core {U : Type} (join : U → U → Option U) (cost : U → ℚ)
    (m : ℚ × List U) : Except SdpError U :=
  if m.1 = 0 then .error .noValidSample
  else
    match dp_phase join m.2 with
    | none => .error .dpDeadEnd
    | some ret =>
        if m.1 ≠ 0 ∧ m.1 < cost ret then
          match reconLoop join m.2 with
          | some aux => if cost aux < cost ret then .ok aux else .ok ret
          | none => .ok ret
        else .ok ret

/-- The `sdp` entry point (`sdp_register.c:1333-1387`) after the join graph
has been built: the S phase followed by `sdp_core`. -/
def sdp_model {U : Type} (join : U → U → Option U) (cost : U → ℚ)
    (sample : ℕ → ℚ × List U) (slope konst mn mx nrels : ℤ) :
    Except SdpError U :=
  sdp_core join cost (s_phase_result sample slope konst mn mx nrels)

/-- Claim C4: when both phases succeed and the cheapest S-phase sample is
strictly cheaper than the DP-phase result, `sdp` rebuilds a chain over the
winning sequence and returns whichever of the rebuilt plan and the
DP-phase result is cheaper (the DP result also when reconstruction fails);
otherwise it returns the DP-phase result unchanged. -/
theorem sdp_reconstruction_fallback {U : Type} (join : U → U → Option U)
    (cost : U → ℚ) (sample : ℕ → ℚ × List U) (slope konst mn mx nrels : ℤ)
    (ret : U)
    (hs : (s_phase_result sample slope konst mn mx nrels).1 ≠ 0)
    (hdp : dp_phase join (s_phase_result sample slope konst mn mx nrels).2 = some ret) :
    ((s_phase_result sample slope konst mn mx nrels).1 < cost ret →
        (∀ aux, reconLoop join (s_phase_result sample slope konst mn mx nrels).2 = some aux →
            sdp_model join cost sample slope konst mn mx nrels =
              .ok (if cost aux < cost ret then aux else ret)) ∧
        (reconLoop join (s_phase_result sample slope konst mn mx nrels).2 = none →
            sdp_model join cost sample slope konst mn mx nrels = .ok ret)) ∧
    (¬ (s_phase_result sample slope konst mn mx nrels).1 < cost ret →
        sdp_model join cost sample slope konst mn mx nrels = .ok ret) := by
  unfold sdp_model sdp_core
  simp only [hs, if_false, hdp]
  constructor
  · intro hlt
    constructor
    · intro aux haux
      simp only [hs, hlt, and_true, not_false_iff, if_true, haux]
      rw [if_pos hs]
      exact (apply_ite Except.ok (cost aux < cost ret) aux ret).symm
    · intro haux
      simp [hs, hlt, haux]
  · intro hnlt
    have : ¬ ((s_phase_result sample slope konst mn mx nrels).1 ≠ 0 ∧
        (s_phase_result sample slope konst mn mx nrels).1 < cost ret) := by
      intro h; exact hnlt h.2
    simp [this]

/-- Witness for C4 at a concrete input (two relations, additive join,
constant sampling outcome): the S-phase cost 1 beats the DP cost 3, so the
fallback reconstructs and keeps the cheaper of the two plans. -/
theorem sdp_reconstruction_fallback_witness :
    (s_phase_result (fun _ => ((1 : ℚ), [1, 2])) 0 0 2 10 2).1 ≠ 0 ∧
    dp_phase (fun a b : ℕ => some (a + b))
        (s_phase_result (fun _ => ((1 : ℚ), [1, 2])) 0 0 2 10 2).2 = some 3 ∧
    sdp_model (fun a b : ℕ => some (a + b)) (fun u => (u : ℚ))
        (fun _ => ((1 : ℚ), [1, 2])) 0 0 2 10 2 =
      .ok (if ((3 : ℕ) : ℚ) < ((3 : ℕ) : ℚ) then 3 else 3) := by
  refine ⟨by decide, by decide, ?_⟩
  exact ((sdp_reconstruction_fallback (fun a b : ℕ => some (a + b)) (fun u => (u : ℚ))
    (fun _ => ((1 : ℚ), [1, 2])) 0 0 2 10 2 3 (by decide) (by decide)).1
    (by decide)).1 3 (by decide)

/-! ## SDP: relation-set coverage and the error taxonomy -/

/-- The set of base relations covered by a list of units (`Relids` union). -/
def relsOfList {U : Type} (rels : U → Finset ℕ) : List U → Finset ℕ
  | [] => ∅
  | u :: rest => rels u ∪ relsOfList rels rest

theorem relsOfList_append {U : Type} (rels : U → Finset ℕ) :
    ∀ a b : List U, relsOfList rels (a ++ b) = relsOfList rels a ∪ relsOfList rels b := by
  intro a b
  induction a with
  | nil => simp [relsOfList]
  | cons x rest ih => simp [relsOfList, ih, Finset.union_assoc]

theorem dpSplit_eq_some {U : Type} (join : U → U → Option U)
    (a b : Option U) (u : U) :
    dpSplit join a b = some u ↔
      ∃ r1 r2, a = some r1 ∧ b = some r2 ∧ join r1 r2 = some u := by
  cases a with
  | none => simp [dpSplit]
  | some r1 =>
    cases b with
    | none => simp [dpSplit]
    | some r2 => simp [dpSplit]

/-- A filled DP cell `matrix[level][p]` covers exactly the relations of the
subsequence `sequence[p .. p+level]`. -/
theorem dpCell_rels {U : Type} (join : U → U → Option U) (rels : U → Finset ℕ)
    (hjoin : ∀ a b c, join a b = some c → rels c = rels a ∪ rels b)
    (seq : List U) :
    ∀ level p u, dpCell join seq level p = some u →
      rels u = relsOfList rels ((seq.drop p).take (level + 1)) := by
  intro level
  induction level using Nat.strong_induction_on with
  | _ level ih =>
    match level with
    | 0 =>
      intro p u hu
      rw [dpCell_zero] at hu
      have hdrop : (seq.drop p)[0]? = some u := by
        rw [List.getElem?_drop]
        simpa using hu
      match hsd : seq.drop p with
      | [] => rw [hsd] at hdrop; simp at hdrop
      | v :: t =>
        rw [hsd] at hdrop
        simp only [List.getElem?_cons_zero, Option.some.injEq] at hdrop
        subst hdrop
        simp [relsOfList]
    | l + 1 =>
      intro p u hu
      rw [dpCell_succ] at hu
      have hmem := firstSome_eq_some hu
      obtain ⟨i, hi, heq⟩ := List.mem_map.mp hmem
      have hil : i ≤ l := by
        have := List.mem_range.mp (List.mem_reverse.mp hi)
        omega
      obtain ⟨r1, r2, h1, h2, hj⟩ := (dpSplit_eq_some join _ _ u).mp heq
      have e1 := ih i (by omega) p r1 h1
      have e2 := ih (l - i) (by omega) (p + i + 1) r2 h2
      have hsplit : (seq.drop p).take (l + 1 + 1) =
          (seq.drop p).take (i + 1) ++ ((seq.drop p).drop (i + 1)).take (l - i + 1) := by
        rw [← List.take_add]
        congr 1
        omega
      have hdd : (seq.drop p).drop (i + 1) = seq.drop (p + i + 1) := by
        rw [List.drop_drop]
        congr 1
      rw [hjoin _ _ _ hj, e1, e2, hsplit, relsOfList_append, hdd]

/-- The S-phase minimum tracker returns its initial accumulator or one of
the samples. -/
theorem s_phase_fold_mem {U : Type} :
    ∀ (l : List (ℚ × List U)) (init : ℚ × List U),
      l.foldl (fun m s => if m.1 = 0 ∨ m.1 > s.1 then s else m) init = init ∨
        l.foldl (fun m s => if m.1 = 0 ∨ m.1 > s.1 then s else m) init ∈ l := by
  intro l
  induction l with
  | nil => intro init; left; rfl
  | cons x rest ih =>
    intro init
    simp only [List.foldl_cons]
    rcases ih (if init.1 = 0 ∨ init.1 > x.1 then x else init) with h | h
    · rw [h]
      split
      · right; exact List.mem_cons_self _ _
      · left; rfl
    · right; exact List.mem_cons_of_mem _ h

theorem reconStep_rels {U : Type} (join : U → U → Option U) (rels : U → Finset ℕ)
    (hjoin : ∀ a b c, join a b = some c → rels c = rels a ∪ rels b) :
    ∀ l l' : List U, reconStep join l = some l' →
      relsOfList rels l' = relsOfList rels l := by
  intro l
  induction l with
  | nil => intro l' h; simp [reconStep] at h
  | cons x rest ih =>
    intro l' h
    match rest with
    | [] => simp [reconStep] at h
    | y :: rest' =>
      rw [reconStep] at h
      cases hj : join x y with
      | some z =>
        rw [hj] at h
        cases h
        simp [relsOfList, hjoin _ _ _ hj, Finset.union_assoc]
      | none =>
        rw [hj] at h
        simp only [Option.map_eq_some'] at h
        obtain ⟨l2, h2, rfl⟩ := h
        simp [relsOfList, ih l2 h2]

theorem reconLoopF_rels {U : Type} (join : U → U → Option U) (rels : U → Finset ℕ)
    (hjoin : ∀ a b c, join a b = some c → rels c = rels a ∪ rels b) :
    ∀ fuel (l : List U) u, reconLoopF join fuel l = some u →
      rels u = relsOfList rels l := by
  intro fuel
  induction fuel with
  | zero =>
    intro l u h
    match l with
    | [] => cases h
    | [x] => cases h; simp [relsOfList]
    | x :: y :: rest => cases h
  | succ fuel ih =>
    intro l u h
    match l with
    | [] => cases h
    | [x] => cases h; simp [relsOfList]
    | x :: y :: rest =>
      rw [reconLoopF] at h
      split at h
      · next l' hs =>
        rw [ih l' u h, reconStep_rels join rels hjoin _ _ hs]
      · exact absurd h (by simp)

theorem reconLoop_rels {U : Type} (join : U → U → Option U) (rels : U → Finset ℕ)
    (hjoin : ∀ a b c, join a b = some c → rels c = rels a ∪ rels b)
    (l : List U) (u : U) (h : reconLoop join l = some u) :
    rels u = relsOfList rels l :=
  reconLoopF_rels join rels hjoin l.length l u h

theorem sdp_core_min0 {U : Type} (join : U → U → Option U) (cost : U → ℚ)
    (m : ℚ × List U) (h : m.1 = 0) :
    sdp_core join cost m = .error .noValidSample := by
  unfold sdp_core
  simp [h]

theorem sdp_core_deadend {U : Type} (join : U → U → Option U) (cost : U → ℚ)
    (m : ℚ × List U) (h0 : m.1 ≠ 0) (hd : dp_phase join m.2 = none) :
    sdp_core join cost m = .error .dpDeadEnd := by
  unfold sdp_core
  simp [h0, hd]

theorem sdp_core_ok {U : Type} (join : U → U → Option U) (cost : U → ℚ)
    (m : ℚ × List U) (h0 : m.1 ≠ 0) (ret : U)
    (hr : dp_phase join m.2 = some ret) :
    sdp_core join cost m = .ok ret ∨
      ∃ aux, reconLoop join m.2 = some aux ∧ sdp_core join cost m = .ok aux := by
  unfold sdp_core
  rw [if_neg h0, hr]
  dsimp only
  by_cases hc : m.1 ≠ 0 ∧ m.1 < cost ret
  · rw [if_pos hc]
    cases hrec : reconLoop join m.2 with
    | none => left; rfl
    | some aux =>
      by_cases hca : cost aux < cost ret
      · right
        exact ⟨aux, rfl, by dsimp only; rw [if_pos hca]⟩
      · left
        dsimp only
        rw [if_neg hca]
  · rw [if_neg hc]
    left
    rfl

/-- When the tracked S-phase minimum is nonzero, the S-phase result is one
of the sampled outcomes, so its sequence covers all `N` relations. -/
theorem s_phase_result_covers {U : Type} (rels : U → Finset ℕ)
    (sample : ℕ → ℚ × List U) (slope konst mn mx nrels : ℤ) (N : ℕ)
    (hseq : ∀ k, relsOfList rels (sample k).2 = Finset.range N)
    (h0 : (s_phase_result sample slope konst mn mx nrels).1 ≠ 0) :
    relsOfList rels (s_phase_result sample slope konst mn mx nrels).2 = Finset.range N := by
  rcases s_phase_fold_mem (s_phase_samples sample slope konst mn mx nrels) (0, []) with h | h
  · exfalso
    apply h0
    have he : s_phase_result sample slope konst mn mx nrels = ((0 : ℚ), ([] : List U)) := h
    rw [he]
  · have h' : s_phase_result sample slope konst mn mx nrels ∈
        s_phase_samples sample slope konst mn mx nrels := h
    obtain ⟨k, -, hk⟩ := List.mem_map.mp h'
    rw [← hk, hseq k]

/-- A successful DP phase covers exactly the relations of its input
sequence. -/
theorem dp_phase_covers {U : Type} (join : U → U → Option U) (rels : U → Finset ℕ)
    (hjoin : ∀ a b c, join a b = some c → rels c = rels a ∪ rels b)
    (L : List U) (r : U) (hr : dp_phase join L = some r) :
    rels r = relsOfList rels L := by
  have hne : L ≠ [] := by
    intro hnil
    rw [hnil] at hr
    simp [dp_phase, dpCell_zero] at hr
  have hcov := dpCell_rels join rels hjoin L (L.length - 1) 0 r hr
  rw [List.drop_zero] at hcov
  have hlen : L.length - 1 + 1 = L.length := by
    cases L with
    | nil => exact absurd rfl hne
    | cons x t => simp
  rw [hlen, List.take_length] at hcov
  exact hcov

/-- Claim C5: for every input on which the join graph is successfully
built, `sdp` aborts with a distinguishable fatal error if and only if the
S phase records no usable sample (the tracked minimum cost remains 0 after
all iterations) or the final DP cell holds no valid join; in every other
case it returns a unit covering all `N` relations.  The hypothesis `hseq`
records that every sampled sequence consists of the `N` base relations,
which `s_phase_get_a_sample` guarantees by construction of `cur_rels`. -/
theorem sdp_error_taxonomy {U : Type} (join : U → U → Option U) (cost : U → ℚ)
    (rels : U → Finset ℕ) (sample : ℕ → ℚ × List U)
    (slope konst mn mx nrels : ℤ) (N : ℕ)
    (hjoin : ∀ a b c, join a b = some c → rels c = rels a ∪ rels b)
    (hseq : ∀ k, relsOfList rels (sample k).2 = Finset.range N) :
    ((∃ e, sdp_model join cost sample slope konst mn mx nrels = .error e) ↔
        ((s_phase_result sample slope konst mn mx nrels).1 = 0 ∨
          dp_phase join (s_phase_result sample slope konst mn mx nrels).2 = none)) ∧
    ((s_phase_result sample slope konst mn mx nrels).1 = 0 →
        sdp_model join cost sample slope konst mn mx nrels = .error .noValidSample) ∧
    ((s_phase_result sample slope konst mn mx nrels).1 ≠ 0 →
      dp_phase join (s_phase_result sample slope konst mn mx nrels).2 = none →
        sdp_model join cost sample slope konst mn mx nrels = .error .dpDeadEnd) ∧
    SdpError.noValidSample ≠ SdpError.dpDeadEnd ∧
    (∀ u, sdp_model join cost sample slope konst mn mx nrels = .ok u →
        rels u = Finset.range N) := by
  have hcover : ∀ u, sdp_model join cost sample slope konst mn mx nrels = .ok u →
      rels u = Finset.range N := by
    intro u hu
    by_cases h0 : (s_phase_result sample slope konst mn mx nrels).1 = 0
    · rw [show sdp_model join cost sample slope konst mn mx nrels =
          .error .noValidSample from sdp_core_min0 join cost _ h0] at hu
      cases hu
    · cases hdp : dp_phase join (s_phase_result sample slope konst mn mx nrels).2 with
      | none =>
        rw [show sdp_model join cost sample slope konst mn mx nrels =
            .error .dpDeadEnd from sdp_core_deadend join cost _ h0 hdp] at hu
        cases hu
      | some ret =>
        have hko := sdp_core_ok join cost
          (s_phase_result sample slope konst mn mx nrels) h0 ret hdp
        have hcovL := s_phase_result_covers rels sample slope konst mn mx nrels N hseq h0
        rcases hko with hok | ⟨aux, hrec, hok⟩
        · have : Except.ok (ε := SdpError) ret = .ok u := by
            rw [← hok]; exact hu.symm ▸ rfl
          cases this
          rw [dp_phase_covers join rels hjoin _ _ hdp, hcovL]
        · have : Except.ok (ε := SdpError) aux = .ok u := by
            rw [← hok]; exact hu.symm ▸ rfl
          cases this
          rw [reconLoop_rels join rels hjoin _ _ hrec, hcovL]
  refine ⟨⟨?_, ?_⟩, fun h0 => sdp_core_min0 join cost _ h0,
    fun h0 hdp => sdp_core_deadend join cost _ h0 hdp, by simp, hcover⟩
  · rintro ⟨e, he⟩
    by_contra hcon
    push_neg at hcon
    obtain ⟨h0, hdp⟩ := hcon
    cases hdpc : dp_phase join (s_phase_result sample slope konst mn mx nrels).2 with
    | none => exact hdp hdpc
    | some ret =>
      rcases sdp_core_ok join cost (s_phase_result sample slope konst mn mx nrels)
          h0 ret hdpc with hok | ⟨aux, -, hok⟩ <;>
        · rw [show sdp_model join cost sample slope konst mn mx nrels = _ from hok] at he
          cases he
  · rintro (h0 | hdp)
    · exact ⟨.noValidSample, sdp_core_min0 join cost _ h0⟩
    · by_cases h0 : (s_phase_result sample slope konst mn mx nrels).1 = 0
      · exact ⟨.noValidSample, sdp_core_min0 join cost _ h0⟩
      · exact ⟨.dpDeadEnd, sdp_core_deadend join cost _ h0 hdp⟩

/-- Witness for C5 at a concrete input: two base relations `{0}` and `{1}`
with union as join. -/
theorem sdp_error_taxonomy_witness :
    (∃ e, sdp_model (fun a b : Finset ℕ => some (a ∪ b)) (fun _ => 1)
        (fun _ => ((1 : ℚ), [{0}, {1}])) 0 0 2 10 2 = .error e) ↔
      ((s_phase_result (fun _ => ((1 : ℚ), [({0} : Finset ℕ), {1}])) 0 0 2 10 2).1 = 0 ∨
        dp_phase (fun a b : Finset ℕ => some (a ∪ b))
          (s_phase_result (fun _ => ((1 : ℚ), [({0} : Finset ℕ), {1}])) 0 0 2 10 2).2 = none) :=
  (sdp_error_taxonomy (fun a b : Finset ℕ => some (a ∪ b)) (fun _ => 1) id
    (fun _ => ((1 : ℚ), [{0}, {1}])) 0 0 2 10 2 2
    (fun a b c h => by cases h; rfl)
    (fun k => show relsOfList id [({0} : Finset ℕ), {1}] = Finset.range 2 by decide)).1

/-! ## TwoPO (`twopo.c`) -/

/-- TwoPO configuration flags (the GUC variables of `twopo.h`). -/
structure TwopoFlags where
  bushy : Bool
  heuristic : Bool
  iiStop : ℕ
  iiImproveStates : Bool
  saEnabled : Bool
  saInitTemp : ℚ
  saTempRed : ℚ
  saEquil : ℕ

/-- The `twopo` entry point (`twopo.c:1456-1521`): with exactly two base
relations it immediately calls `make_join_rel` on them, applies
`set_cheapest`, and returns (`twopo.c:1469-1477`), reaching neither the II
phase nor the SA phase; otherwise the two local-search phases run
(abstracted here by `search`). -/
def twopo {U : Type} (join : U → U → Option U) (setCheapest : U → U)
    (search : TwopoFlags → List U → Option U) (flags : TwopoFlags)
    (nodeList : List U) : Option U :=
  match nodeList with
  | [a, b] => (join a b).map setCheapest
  | _ => search flags nodeList

/-- Claim C10: with exactly two units, `twopo` bypasses both the II and SA
phases and returns the direct join of the two units with its cheapest path
selected, regardless of the configuration flags (and of whatever the
search phases would have computed). -/
theorem twopo_two_rels {U : Type} (join : U → U → Option U) (setCheapest : U → U)
    (search srch2 : TwopoFlags → List U → Option U) (flags flags2 : TwopoFlags)
    (a b : U) :
    twopo join setCheapest search flags [a, b] = (join a b).map setCheapest ∧
      twopo join setCheapest search flags [a, b] =
        twopo join setCheapest srch2 flags2 [a, b] :=
  ⟨rfl, rfl⟩

/-! ## TwoPO: the SA freeze condition (`saPhase`, `twopo.c:1392-1454`) -/

/-- One temperature round of the SA phase (`twopo.c:1423-1447`): after an
equilibrium batch, `stage_count` was reset to 0 by every new global
minimum found inside the batch and is then incremented once, and the
temperature is multiplied by the reduction factor.  `found` abstracts
whether the batch found a new global minimum, so the new `stage_count` is
1 after a batch with a new minimum and grows by 1 otherwise. -/
def saRound (reduction : ℚ) (found : Bool) (s : ℚ × ℕ) : ℚ × ℕ :=
  (s.1 * reduction, if found then 1 else s.2 + 1)

/-- SA state (temperature, `stage_count`) before round `n`, starting from
temperature `t0` and `stage_count = 0` (`twopo.c:1398,1414`). -/
def saState (t0 reduction : ℚ) (found : ℕ → Bool) : ℕ → ℚ × ℕ
  | 0 => (t0, 0)
  | n + 1 => saRound reduction (found n) (saState t0 reduction found n)

/-- The `while` guard of the SA loop (`twopo.c:1421`):
`temperature >= 1 && stage_count < 5`. -/
def saGuard (s : ℚ × ℕ) : Bool := decide (1 ≤ s.1) && decide (s.2 < 5)

/-- The SA outer loop (`twopo.c:1421-1448`), counting executed equilibrium
batches: starting from state `s` with `k` batches already executed, keep
running batches while the guard holds.  `fuel` bounds the remaining
rounds, because for an arbitrary reduction factor the C loop need not
terminate. -/
def saRoundsRun (reduction : ℚ) (found : ℕ → Bool) : ℕ → ℚ × ℕ → ℕ → ℕ
  | 0, _, k => k
  | fuel + 1, s, k =>
      if saGuard s then
        saRoundsRun reduction found fuel (saRound reduction (found k) s) (k + 1)
      else k

theorem saRoundsRun_le (reduction : ℚ) (found : ℕ → Bool) :
    ∀ fuel (s : ℚ × ℕ) (k : ℕ), k ≤ saRoundsRun reduction found fuel s k := by
  intro fuel
  induction fuel with
  | zero => intro s k; exact le_rfl
  | succ fuel ih =>
    intro s k
    rw [saRoundsRun]
    split
    · exact le_trans (Nat.le_succ k) (ih _ _)
    · exact le_rfl

/-- Claim C2 (amended): the SA loop stops exactly when the temperature has
dropped below 1 **or** five consecutive temperature-reduction rounds have
passed without a new global minimum, whichever happens first; while
neither has happened, the loop keeps generating equilibrium batches. -/
theorem saPhase_frozen_iff (reduction : ℚ) (found : ℕ → Bool) (fuel : ℕ)
    (s : ℚ × ℕ) (k : ℕ) :
    saRoundsRun reduction found (fuel + 1) s k = k ↔ (s.1 < 1 ∨ 5 ≤ s.2) := by
  rw [saRoundsRun]
  by_cases hg : saGuard s = true
  · rw [if_pos hg]
    have hg' : 1 ≤ s.1 ∧ s.2 < 5 := by simpa [saGuard] using hg
    constructor
    · intro h
      exfalso
      have := saRoundsRun_le reduction found fuel (saRound reduction (found k) s) (k + 1)
      omega
    · rintro (h1 | h2)
      · exact absurd hg' (by intro hh; exact absurd hh.1 (not_le.mpr h1))
      · omega
  · rw [if_neg hg]
    have hg' : ¬ (1 ≤ s.1 ∧ s.2 < 5) := by simpa [saGuard] using hg
    refine ⟨fun _ => ?_, fun _ => rfl⟩
    rcases lt_or_le s.1 1 with h1 | h1
    · exact Or.inl h1
    · refine Or.inr ?_
      by_contra h2
      exact hg' ⟨h1, by omega⟩

theorem saGuard_true_iff (s : ℚ × ℕ) : saGuard s = true ↔ (1 ≤ s.1 ∧ s.2 < 5) := by
  simp [saGuard]

theorem saRoundsRun_step (reduction : ℚ) (found : ℕ → Bool) (fuel : ℕ)
    (s : ℚ × ℕ) (k : ℕ) (hg : saGuard s = true) :
    saRoundsRun reduction found (fuel + 1) s k =
      saRoundsRun reduction found fuel (saRound reduction (found k) s) (k + 1) := by
  rw [saRoundsRun, if_pos hg]

theorem saRoundsRun_stop (reduction : ℚ) (found : ℕ → Bool) (fuel : ℕ)
    (s : ℚ × ℕ) (k : ℕ) (hg : ¬ saGuard s = true) :
    saRoundsRun reduction found (fuel + 1) s k = k := by
  rw [saRoundsRun, if_neg hg]

/-- Counterexample to C2 as stated: with the valid configuration
`reduction = 0.9` and initial temperature 100, five consecutive
no-improvement rounds freeze the loop — it executes exactly 5 of the 100
allowed batches — even though the temperature (`59.049` at the end, larger
before) was never below 1, so the loop does not keep generating batches
until the temperature has been below 1 for 5 such rounds. -/
theorem saPhase_frozen_counterexample :
    saRoundsRun (9 / 10) (fun _ => false) 100 (100, 0) 0 = 5 ∧
      1 ≤ (saState 100 (9 / 10) (fun _ => false) 0).1 ∧
      1 ≤ (saState 100 (9 / 10) (fun _ => false) 1).1 ∧
      1 ≤ (saState 100 (9 / 10) (fun _ => false) 2).1 ∧
      1 ≤ (saState 100 (9 / 10) (fun _ => false) 3).1 ∧
      1 ≤ (saState 100 (9 / 10) (fun _ => false) 4).1 ∧
      1 ≤ (saState 100 (9 / 10) (fun _ => false) 5).1 := by
  have e1 : saRound (9 / 10) false ((100 : ℚ), 0) = (90, 1) := by
    unfold saRound; norm_num
  have e2 : saRound (9 / 10) false ((90 : ℚ), 1) = (81, 2) := by
    unfold saRound; norm_num
  have e3 : saRound (9 / 10) false ((81 : ℚ), 2) = (729 / 10, 3) := by
    unfold saRound; norm_num
  have e4 : saRound (9 / 10) false ((729 / 10 : ℚ), 3) = (6561 / 100, 4) := by
    unfold saRound; norm_num
  have e5 : saRound (9 / 10) false ((6561 / 100 : ℚ), 4) = (59049 / 1000, 5) := by
    unfold saRound; norm_num
  have hs0 : saState 100 (9 / 10) (fun _ => false) 0 = (100, 0) := rfl
  have hs1 : saState 100 (9 / 10) (fun _ => false) 1 = (90, 1) := by
    show saRound (9 / 10) false (saState 100 (9 / 10) (fun _ => false) 0) = (90, 1)
    rw [hs0, e1]
  have hs2 : saState 100 (9 / 10) (fun _ => false) 2 = (81, 2) := by
    show saRound (9 / 10) false (saState 100 (9 / 10) (fun _ => false) 1) = (81, 2)
    rw [hs1, e2]
  have hs3 : saState 100 (9 / 10) (fun _ => false) 3 = (729 / 10, 3) := by
    show saRound (9 / 10) false (saState 100 (9 / 10) (fun _ => false) 2) = (729 / 10, 3)
    rw [hs2, e3]
  have hs4 : saState 100 (9 / 10) (fun _ => false) 4 = (6561 / 100, 4) := by
    show saRound (9 / 10) false (saState 100 (9 / 10) (fun _ => false) 3) = (6561 / 100, 4)
    rw [hs3, e4]
  have hs5 : saState 100 (9 / 10) (fun _ => false) 5 = (59049 / 1000, 5) := by
    show saRound (9 / 10) false (saState 100 (9 / 10) (fun _ => false) 4) = (59049 / 1000, 5)
    rw [hs4, e5]
  refine ⟨?_, by rw [hs0]; norm_num, by rw [hs1]; norm_num, by rw [hs2]; norm_num,
    by rw [hs3]; norm_num, by rw [hs4]; norm_num, by rw [hs5]; norm_num⟩
  have g0 : saGuard ((100 : ℚ), 0) = true := by rw [saGuard_true_iff]; norm_num
  have g1 : saGuard ((90 : ℚ), 1) = true := by rw [saGuard_true_iff]; norm_num
  have g2 : saGuard ((81 : ℚ), 2) = true := by rw [saGuard_true_iff]; norm_num
  have g3 : saGuard ((729 / 10 : ℚ), 3) = true := by rw [saGuard_true_iff]; norm_num
  have g4 : saGuard ((6561 / 100 : ℚ), 4) = true := by rw [saGuard_true_iff]; norm_num
  have g5 : ¬ saGuard ((59049 / 1000 : ℚ), 5) = true := by
    rw [saGuard_true_iff]; norm_num
  show saRoundsRun (9 / 10) (fun _ => false) (99 + 1) (100, 0) 0 = 5
  rw [saRoundsRun_step _ _ _ _ _ g0]
  show saRoundsRun (9 / 10) (fun _ => false) (98 + 1)
    (saRound (9 / 10) false (100, 0)) 1 = 5
  rw [e1, saRoundsRun_step _ _ _ _ _ g1]
  show saRoundsRun (9 / 10) (fun _ => false) (97 + 1)
    (saRound (9 / 10) false (90, 1)) 2 = 5
  rw [e2, saRoundsRun_step _ _ _ _ _ g2]
  show saRoundsRun (9 / 10) (fun _ => false) (96 + 1)
    (saRound (9 / 10) false (81, 2)) 3 = 5
  rw [e3, saRoundsRun_step _ _ _ _ _ g3]
  show saRoundsRun (9 / 10) (fun _ => false) (95 + 1)
    (saRound (9 / 10) false (729 / 10, 3)) 4 = 5
  rw [e4, saRoundsRun_step _ _ _ _ _ g4]
  show saRoundsRun (9 / 10) (fun _ => false) (94 + 1)
    (saRound (9 / 10) false (6561 / 100, 4)) 5 = 5
  rw [e5, saRoundsRun_stop _ _ _ _ _ g5]

/-! ## TwoPO: Iterative Improvement (`iiImprove`, `twopo.c:1313-1342`) -/

/-- The inner loop of `iiImprove` (`twopo.c:1325-1337`): `cur` is the
current `output` state (its cost is the tracked `cheapest_cost`), `i` the
count of consecutive non-improving neighbors, `k` the index of the next
neighbor draw.  `gen k cur` abstracts the randomized `neighbordState`
(a failed left-deep move keeps the copied cost, hence is non-improving).
The loop stops once `i` reaches `size` (`local_minimum = input->size`);
`fuel` bounds the iteration count, because for ever-decreasing costs the C
loop need not terminate. -/
def iiLoop {St : Type} (cost : St → ℚ) (gen : ℕ → St → St) (size : ℕ) :
    ℕ → St → ℕ → ℕ → St
  | 0, cur, _, _ => cur
  | fuel + 1, cur, i, k =>
      if i < size then
        if cost (gen k cur) < cost cur then
          iiLoop cost gen size fuel (gen k cur) 0 (k + 1)
        else
          iiLoop cost gen size fuel cur (i + 1) (k + 1)
      else cur

/-- `iiImprove` (`twopo.c:1313-1342`): hill-climb from `input`, stopping
after `size` consecutive non-improving neighbors. -/
def iiImprove {St : Type} (cost : St → ℚ) (gen : ℕ → St → St) (size : ℕ)
    (fuel : ℕ) (input : St) : St :=
  iiLoop cost gen size fuel input 0 0

theorem iiLoop_cost_le {St : Type} (cost : St → ℚ) (gen : ℕ → St → St) (size : ℕ) :
    ∀ fuel (cur : St) (i k : ℕ),
      cost (iiLoop cost gen size fuel cur i k) ≤ cost cur := by
  intro fuel
  induction fuel with
  | zero => intro cur i k; exact le_rfl
  | succ fuel ih =>
    intro cur i k
    rw [iiLoop]
    split
    · split
      · next h => exact le_trans (ih _ _ _) (le_of_lt h)
      · exact ih _ _ _
    · exact le_rfl

theorem iiLoop_local_min {St : Type} (cost : St → ℚ) (gen : ℕ → St → St) (size : ℕ) :
    ∀ (j : ℕ) (cur : St) (i k fuel : ℕ), i + j = size → j ≤ fuel →
      (∀ t < j, ¬ cost (gen (k + t) cur) < cost cur) →
      iiLoop cost gen size fuel cur i k = cur := by
  intro j
  induction j with
  | zero =>
    intro cur i k fuel hij _ _
    have hi : i = size := by omega
    subst hi
    match fuel with
    | 0 => rfl
    | fuel + 1 =>
      rw [iiLoop, if_neg (by omega)]
  | succ j ih =>
    intro cur i k fuel hij hle hno
    match fuel with
    | 0 => omega
    | fuel + 1 =>
      rw [iiLoop, if_pos (by omega)]
      have h0 := hno 0 (by omega)
      rw [if_neg (by simpa using h0)]
      refine ih cur (i + 1) (k + 1) fuel (by omega) (by omega) ?_
      intro t ht
      have hk : k + 1 + t = k + (t + 1) := by omega
      rw [hk]
      exact hno (t + 1) (by omega)

/-- Claim C9: within one II restart the tracked cheapest cost is
non-increasing across accepted moves (every suffix of the run returns a
state at most as expensive as its entry state); a neighbor replaces the
current state only when its cost is strictly lower; once `size`
consecutive non-improving neighbors occur the restart stops and, in
particular, `size` immediately non-improving draws return the input
unchanged; and the returned state's cost is at most the input's cost. -/
theorem iiImprove_monotone {St : Type} (cost : St → ℚ) (gen : ℕ → St → St)
    (size fuel : ℕ) (input : St) :
    cost (iiImprove cost gen size fuel input) ≤ cost input ∧
    (∀ fuel' (cur : St) (i k : ℕ),
        cost (iiLoop cost gen size fuel' cur i k) ≤ cost cur) ∧
    (∀ (cur : St) (i k : ℕ), i < size → ¬ cost (gen k cur) < cost cur →
        iiLoop cost gen size (fuel + 1) cur i k =
          iiLoop cost gen size fuel cur (i + 1) (k + 1)) ∧
    (∀ (cur : St) (i k : ℕ), i < size → cost (gen k cur) < cost cur →
        iiLoop cost gen size (fuel + 1) cur i k =
          iiLoop cost gen size fuel (gen k cur) 0 (k + 1)) ∧
    (∀ (cur : St) (k fuel' : ℕ), iiLoop cost gen size fuel' cur size k = cur) ∧
    (∀ k, (∀ t < size, ¬ cost (gen (k + t) input) < cost input) → size ≤ fuel →
        iiLoop cost gen size fuel input 0 k = input) := by
  refine ⟨iiLoop_cost_le cost gen size fuel input 0 0,
    fun fuel' cur i k => iiLoop_cost_le cost gen size fuel' cur i k,
    ?_, ?_, ?_, ?_⟩
  · intro cur i k hi hno
    rw [iiLoop, if_pos hi, if_neg hno]
  · intro cur i k hi himp
    rw [iiLoop, if_pos hi, if_pos himp]
  · intro cur k fuel'
    exact iiLoop_local_min cost gen size 0 cur size k fuel' (by omega) (by omega)
      (by intro t ht; omega)
  · intro k hno hle
    exact iiLoop_local_min cost gen size size input 0 k fuel (by omega) hle hno

/-- Witness for C9 at a concrete input: cost is the identity on `ℚ`, every
neighbor is one more than the current state (never improving), `size = 3`:
the restart stops immediately and returns the input `5` unchanged. -/
theorem iiImprove_monotone_witness :
    iiLoop (id : ℚ → ℚ) (fun _ x => x + 1) 3 10 5 0 0 = 5 ∧
      id (iiImprove (id : ℚ → ℚ) (fun _ x => x + 1) 3 10 5) ≤ id (5 : ℚ) :=
  ⟨(iiImprove_monotone (id : ℚ → ℚ) (fun _ x => x + 1) 3 10 5).2.2.2.2.2 0
      (by intro t ht; norm_num) (by norm_num),
    (iiImprove_monotone (id : ℚ → ℚ) (fun _ x => x + 1) 3 10 5).1⟩

/-! ## TwoPO: join graph construction (`createEdges`, `twopo.c:1164-1240`) -/

/-- State of `createEdges`: the edge list, the `has_adj` marker array
(as the set of marked nodes), and the adjacency matrix `adj` (as the set
of true cells; the C code always sets `adj[i][j]` and `adj[j][i]`
together, `twopo.c:1202-1203` and `1221-1222`). -/
structure CEState where
  edges : List (ℕ × ℕ)
  hasAdj : Finset ℕ
  adjm : Finset (ℕ × ℕ)

/-- Record the edge `(i, j)` (`twopo.c:1196-1203`): append it to the edge
list, mark `has_adj` for both endpoints, set `adj[i][j]` and `adj[j][i]`. -/
def ceAdd (st : CEState) (i j : ℕ) : CEState :=
  ⟨st.edges ++ [(i, j)], insert i (insert j st.hasAdj),
    insert (i, j) (insert (j, i) st.adjm)⟩

/-- The desirable-edge pass for row `i`
(`for (j = i; j < numNodes; j++)`, `twopo.c:1192-1205`). -/
def ceInner (desir : ℕ → ℕ → Bool) (N i : ℕ) (st : CEState) : CEState :=
  ((List.range N).drop i).foldl
    (fun st j => if desir i j then ceAdd st i j else st) st

/-- The forced cross-product pass (`twopo.c:1207-1224`): when row `i` has
no adjacency yet, add an edge from `i` to every other node. -/
def ceForced (N i : ℕ) (st : CEState) : CEState :=
  (List.range N).foldl (fun st j => if i = j then st else ceAdd st i j) st

/-- One outer iteration of `createEdges`: the desirable edges of row `i`,
then the forced pass when `has_adj[i]` is still false. -/
def ceOuter (desir : ℕ → ℕ → Bool) (N : ℕ) (st : CEState) (i : ℕ) : CEState :=
  let st1 := ceInner desir N i st
  if i ∈ st1.hasAdj then st1 else ceForced N i st1

/-- `createEdges` (`twopo.c:1164-1240`), parameterized by the
`isDesirableEdge` predicate (`twopo.c:1149-1157`). -/
def createEdges (desir : ℕ → ℕ → Bool) (N : ℕ) : CEState :=
  (List.range N).foldl (ceOuter desir N) ⟨[], ∅, ∅⟩

/-- The two bookkeeping invariants of `createEdges`: a matrix cell is true
exactly when the edge list connects the two nodes, and `has_adj` marks
exactly the nodes touched by some edge. -/
def CEInv (st : CEState) : Prop :=
  (∀ p : ℕ × ℕ, p ∈ st.adjm ↔ (p ∈ st.edges ∨ (p.2, p.1) ∈ st.edges)) ∧
  (∀ a : ℕ, a ∈ st.hasAdj ↔ ∃ e ∈ st.edges, e.1 = a ∨ e.2 = a)

theorem foldl_preserve {α β : Type} (P : α → Prop) (f : α → β → α)
    (hf : ∀ st x, P st → P (f st x)) :
    ∀ (l : List β) (st : α), P st → P (l.foldl f st) := by
  intro l
  induction l with
  | nil => intro st h; exact h
  | cons x rest ih => intro st h; exact ih (f st x) (hf st x h)

theorem ceAdd_inv (st : CEState) (i j : ℕ) (h : CEInv st) : CEInv (ceAdd st i j) := by
  obtain ⟨hadj, hhas⟩ := h
  constructor
  · intro p
    simp only [ceAdd, Finset.mem_insert, List.mem_append, List.mem_singleton,
      hadj p, Prod.ext_iff]
    constructor
    · rintro (⟨h1, h2⟩ | ⟨h1, h2⟩ | h | h)
      · exact Or.inl (Or.inr ⟨h1, h2⟩)
      · exact Or.inr (Or.inr ⟨h2, h1⟩)
      · exact Or.inl (Or.inl h)
      · exact Or.inr (Or.inl h)
    · rintro ((h | ⟨h1, h2⟩) | (h | ⟨h1, h2⟩))
      · exact Or.inr (Or.inr (Or.inl h))
      · exact Or.inl ⟨h1, h2⟩
      · exact Or.inr (Or.inr (Or.inr h))
      · exact Or.inr (Or.inl ⟨h2, h1⟩)
  · intro a
    simp only [ceAdd, Finset.mem_insert, List.mem_append, List.mem_singleton, hhas a]
    constructor
    · rintro (rfl | rfl | ⟨e, he, hea⟩)
      · exact ⟨(a, j), Or.inr rfl, Or.inl rfl⟩
      · exact ⟨(i, a), Or.inr rfl, Or.inr rfl⟩
      · exact ⟨e, Or.inl he, hea⟩
    · rintro ⟨e, he | rfl, hea⟩
      · exact Or.inr (Or.inr ⟨e, he, hea⟩)
      · rcases hea with rfl | rfl
        · exact Or.inl rfl
        · exact Or.inr (Or.inl rfl)

theorem ceInner_inv (desir : ℕ → ℕ → Bool) (N i : ℕ) (st : CEState)
    (h : CEInv st) : CEInv (ceInner desir N i st) :=
  foldl_preserve CEInv _
    (fun st j hst => by
      show CEInv (if desir i j then ceAdd st i j else st)
      split
      · exact ceAdd_inv st i j hst
      · exact hst) _ st h

theorem ceForced_inv (N i : ℕ) (st : CEState) (h : CEInv st) :
    CEInv (ceForced N i st) :=
  foldl_preserve CEInv _
    (fun st j hst => by
      show CEInv (if i = j then st else ceAdd st i j)
      split
      · exact hst
      · exact ceAdd_inv st i j hst) _ st h

theorem ceOuter_inv (desir : ℕ → ℕ → Bool) (N : ℕ) (st : CEState) (i : ℕ)
    (h : CEInv st) : CEInv (ceOuter desir N st i) := by
  unfold ceOuter
  dsimp only
  split
  · exact ceInner_inv desir N i st h
  · exact ceForced_inv N i _ (ceInner_inv desir N i st h)

theorem createEdges_inv (desir : ℕ → ℕ → Bool) (N : ℕ) :
    CEInv (createEdges desir N) :=
  foldl_preserve CEInv _ (fun st i h => ceOuter_inv desir N st i h) _ _
    ⟨by simp, by simp⟩

theorem ceAdd_hasAdj_mono (st : CEState) (i j : ℕ) :
    st.hasAdj ⊆ (ceAdd st i j).hasAdj := by
  intro a ha
  simp only [ceAdd, Finset.mem_insert]
  exact Or.inr (Or.inr ha)

theorem ceInner_hasAdj_mono (desir : ℕ → ℕ → Bool) (N i : ℕ) (st : CEState) :
    st.hasAdj ⊆ (ceInner desir N i st).hasAdj := by
  unfold ceInner
  generalize (List.range N).drop i = l
  induction l generalizing st with
  | nil => exact fun a ha => ha
  | cons x rest ih =>
    intro a ha
    rw [List.foldl_cons]
    apply ih
    dsimp only
    split
    · exact ceAdd_hasAdj_mono st i x ha
    · exact ha

theorem ceForced_hasAdj_mono (N i : ℕ) (st : CEState) :
    st.hasAdj ⊆ (ceForced N i st).hasAdj := by
  unfold ceForced
  generalize List.range N = l
  induction l generalizing st with
  | nil => exact fun a ha => ha
  | cons x rest ih =>
    intro a ha
    rw [List.foldl_cons]
    apply ih
    dsimp only
    split
    · exact ha
    · exact ceAdd_hasAdj_mono st i x ha

theorem ceOuter_hasAdj_mono (desir : ℕ → ℕ → Bool) (N : ℕ) (st : CEState) (i : ℕ) :
    st.hasAdj ⊆ (ceOuter desir N st i).hasAdj := by
  unfold ceOuter
  dsimp only
  split
  · exact ceInner_hasAdj_mono desir N i st
  · exact subset_trans (ceInner_hasAdj_mono desir N i st)
      (ceForced_hasAdj_mono N i _)

/-- After the forced pass, row `i` is marked, provided some other node
exists in `0..N-1`. -/
theorem ceForced_marks (N i : ℕ) (st : CEState)
    (hex : ∃ j ∈ List.range N, i ≠ j) :
    i ∈ (ceForced N i st).hasAdj := by
  unfold ceForced
  revert st
  generalize List.range N = l at hex
  induction l with
  | nil => simp at hex
  | cons x rest ih =>
    intro st
    rw [List.foldl_cons]
    by_cases hix : i = x
    · rw [show (if i = x then st else ceAdd st i x) = st from if_pos hix]
      obtain ⟨j, hj, hij⟩ := hex
      rcases List.mem_cons.mp hj with rfl | hj'
      · exact absurd hix hij
      · exact ih ⟨j, hj', hij⟩ st
    · rw [show (if i = x then st else ceAdd st i x) = ceAdd st i x from if_neg hix]
      have hmem : i ∈ (ceAdd st i x).hasAdj := by simp [ceAdd]
      exact foldl_preserve (fun st => i ∈ st.hasAdj) _
        (fun st' y h => by
          show i ∈ (if i = y then st' else ceAdd st' i y).hasAdj
          split
          · exact h
          · exact ceAdd_hasAdj_mono st' i y h) rest (ceAdd st i x) hmem

/-- Every row processed by the outer loop is marked by the end. -/
theorem createEdges_rows_marked (desir : ℕ → ℕ → Bool) (N : ℕ) (hN : 2 ≤ N) :
    ∀ i < N, i ∈ (createEdges desir N).hasAdj := by
  have main : ∀ (l : List ℕ) (st : CEState), (∀ i ∈ l, i < N) →
      ∀ i ∈ l, i ∈ (l.foldl (ceOuter desir N) st).hasAdj := by
    intro l
    induction l with
    | nil => intro st _ i hi; cases hi
    | cons x rest ih =>
      intro st hlt i hi
      rw [List.foldl_cons]
      rcases List.mem_cons.mp hi with rfl | hi'
      · have hx : i ∈ (ceOuter desir N st i).hasAdj := by
          unfold ceOuter
          dsimp only
          split
          · next h => exact h
          · apply ceForced_marks
            have hiN : i < N := hlt i (List.mem_cons_self _ _)
            by_cases h0 : i = 0
            · exact ⟨1, by simp [List.mem_range]; omega, by omega⟩
            · exact ⟨0, by simp [List.mem_range]; omega, by omega⟩
        exact foldl_preserve (fun st => i ∈ st.hasAdj) _
          (fun st' y h => ceOuter_hasAdj_mono desir N st' y h) rest
          (ceOuter desir N st i) hx
      · exact ih (ceOuter desir N st x) (fun j hj => hlt j (List.mem_cons_of_mem _ hj)) i hi'
  intro i hiN
  exact main (List.range N) ⟨[], ∅, ∅⟩ (fun j hj => List.mem_range.mp hj) i
    (List.mem_range.mpr hiN)

/-- Claim C8: after `createEdges` runs on `N ≥ 2` units, `adj[i][j]` is
true if and only if some edge (including forced cross-product edges)
connects relations `i` and `j`, and every row `i < N` of the matrix has at
least one true entry. -/
theorem createEdges_adjacency (desir : ℕ → ℕ → Bool) (N : ℕ) (hN : 2 ≤ N) :
    (∀ i j : ℕ, (i, j) ∈ (createEdges desir N).adjm ↔
        ((i, j) ∈ (createEdges desir N).edges ∨
          (j, i) ∈ (createEdges desir N).edges)) ∧
    (∀ i < N, ∃ j, (i, j) ∈ (createEdges desir N).adjm) := by
  obtain ⟨hadj, hhas⟩ := createEdges_inv desir N
  constructor
  · intro i j
    exact hadj (i, j)
  · intro i hiN
    have hi := createEdges_rows_marked desir N hN i hiN
    obtain ⟨e, he, hea⟩ := (hhas i).mp hi
    rcases hea with h1 | h2
    · refine ⟨e.2, (hadj (i, e.2)).mpr (Or.inl ?_)⟩
      rw [show (i, e.2) = e from by rw [← h1]]
      exact he
    · refine ⟨e.1, (hadj (i, e.1)).mpr (Or.inr ?_)⟩
      rw [show (e.1, i) = e from by rw [← h2]]
      exact he

/-- Witness for C8: two units with no desirable edge at all, so both rows
are connected by forced cross products. -/
theorem createEdges_adjacency_witness :
    2 ≤ 2 ∧ ∃ j, (0, j) ∈ (createEdges (fun _ _ => false) 2).adjm :=
  ⟨le_rfl, (createEdges_adjacency (fun _ _ => false) 2 le_rfl).2 0 (by norm_num)⟩

/-! ## TwoPO: left-deep encoding (`encodeLeftDeepTree`, `twopo.c:540-600`)
and left-deep neighbor moves (`neighbordStateLeftDeep`,
`twopo.c:1072-1105`) -/

/-- The inner scan of `encodeLeftDeepTree`
(`for (j = i; j < numEdges; j++)`, `twopo.c:570-583`): find the first
remaining edge with exactly one endpoint already used (the `XOR` macro),
returning the skipped prefix, the found edge and the rest. -/
def eldScan (used : Finset ℕ) :
    List (ℕ × ℕ) → Option (List (ℕ × ℕ) × (ℕ × ℕ) × List (ℕ × ℕ))
  | [] => none
  | e :: rest =>
      if decide (e.1 ∈ used) != decide (e.2 ∈ used) then some ([], e, rest)
      else (eldScan used rest).map fun r => (e :: r.1, r.2.1, r.2.2)

/-- The partial reshuffle (`for (k = j-1; k >= i; k--)`,
`twopo.c:587-594`): of the edges skipped by the scan, keep exactly those
that still have an endpoint not yet used; the copy pattern
`edges[j--] = edges[k]` places them, in their original relative order,
directly ahead of the remaining edges. -/
def eldKeep (used : Finset ℕ) (pre : List (ℕ × ℕ)) : List (ℕ × ℕ) :=
  pre.filter fun e => decide (e.1 ∉ used) || decide (e.2 ∉ used)

/-- The edge-consuming loop of `encodeLeftDeepTree` (`twopo.c:567-596`):
scan for an edge with exactly one used endpoint, append its unused
endpoint to the element list, and stop when all `numNodes` relations are
placed or no edge qualifies (`j == numEdges`).  Every iteration removes at
least one edge from `avail`, so `fuel = numEdges` never runs out. -/
def eldLoop (numNodes : ℕ) : ℕ → List (ℕ × ℕ) → Finset ℕ → List ℕ → List ℕ
  | 0, _, _, out => out
  | fuel + 1, avail, used, out =>
      match eldScan used avail with
      | none => out
      | some (pre, e, post) =>
          let r := if e.1 ∈ used then e.2 else e.1
          let out' := out ++ [r]
          let used' := insert r used
          if out'.length = numNodes then out'
          else eldLoop numNodes fuel (eldKeep used' pre ++ post) used' out'

/-- `encodeLeftDeepTree` (`twopo.c:540-600`): place both endpoints of the
first edge (`twopo.c:563-566`), then run the loop over the remaining
edges.  The C code leaves `elementList[count..numNodes-1]` uninitialized
when the loop stops early; the model returns exactly the entries
written. -/
def encodeLeftDeepTree (edges : List (ℕ × ℕ)) (numNodes : ℕ) : List ℕ :=
  match edges with
  | [] => []
  | e :: rest => eldLoop numNodes rest.length rest {e.1, e.2} [e.1, e.2]

/-- `canRelPushedDown` (`twopo.c:1053-1070`): relation `rel` may be moved
to position `pos` when it is adjacent to some earlier element. -/
def canRelPushedDown (adj : ℕ → ℕ → Bool) (elem : List ℕ) (rel pos : ℕ) : Bool :=
  (List.range pos).any fun i => adj rel (elem.getD i 0)

/-- Swap of the adjacent entries at positions `n` and `n + 1`
(`swapValues` on `elementList[idx]`/`elementList[idx+1]`). -/
def adjSwap : List ℕ → ℕ → List ℕ
  | a :: b :: rest, 0 => b :: a :: rest
  | x :: rest, n + 1 => x :: adjSwap rest n
  | l, _ => l

/-- `neighbordStateLeftDeep` (`twopo.c:1072-1105`): with probability 1/2
(or always when `size = 2`) an adjacent swap at a random position,
otherwise a 3-rotation (two consecutive adjacent swaps); either move is
applied only when the relocated unit stays connectable to everything
placed before it, and the move is otherwise reported as failed.  `useSwap`
and `idx` stand for the two random draws. -/
def neighbordStateLeftDeep (adj : ℕ → ℕ → Bool) (elem : List ℕ)
    (useSwap : Bool) (idx : ℕ) : List ℕ × Bool :=
  if elem.length = 2 ∨ useSwap = true then
    if canRelPushedDown adj elem (elem.getD (idx + 1) 0) idx then
      (adjSwap elem idx, false)
    else (elem, true)
  else
    if canRelPushedDown adj elem (elem.getD (idx + 2) 0) idx then
      (adjSwap (adjSwap elem idx) (idx + 1), false)
    else (elem, true)

theorem adjSwap_perm (l : List ℕ) : ∀ n, (adjSwap l n).Perm l := by
  induction l with
  | nil => intro n; cases n <;> exact List.Perm.refl _
  | cons x rest ih =>
    intro n
    cases n with
    | zero =>
      cases rest with
      | nil => exact List.Perm.refl _
      | cons b rest' => exact List.Perm.swap x b rest'
    | succ n => simpa [adjSwap] using (ih n).cons x

theorem neighbordStateLeftDeep_perm (adj : ℕ → ℕ → Bool) (elem : List ℕ)
    (useSwap : Bool) (idx : ℕ) :
    (neighbordStateLeftDeep adj elem useSwap idx).1.Perm elem := by
  unfold neighbordStateLeftDeep
  split
  · split
    · exact adjSwap_perm elem idx
    · exact List.Perm.refl _
  · split
    · exact ((adjSwap_perm (adjSwap elem idx) (idx + 1)).trans (adjSwap_perm elem idx))
    · exact List.Perm.refl _

/-- Counterexample to C6 as stated: the edge list `[(0,1), (2,3)]` covers
all four relations but its join graph is disconnected; the encoder stops
early (`j == numEdges`, `twopo.c:584`) having written only `[0, 1]` and
leaving `elementList[2..3]` uninitialized, so the element list is not a
permutation of `0..3`. -/
theorem encodeLeftDeep_counterexample :
    (List.range 4).all
        (fun i => [(0, 1), (2, 3)].any fun e : ℕ × ℕ =>
          decide (e.1 = i) || decide (e.2 = i)) = true ∧
      encodeLeftDeepTree [(0, 1), (2, 3)] 4 = [0, 1] ∧
      ¬ (encodeLeftDeepTree [(0, 1), (2, 3)] 4).Perm (List.range 4) := by
  decide

/-- Connectivity of an edge list over nodes `0..N-1`, stated as the cut
property: every nonempty proper subset of the nodes has a crossing edge. -/
def CutConnected (edges : List (ℕ × ℕ)) (N : ℕ) : Prop :=
  ∀ S ∈ (Finset.range N).powerset, S.Nonempty → S ≠ Finset.range N →
    ∃ e ∈ edges, (e.1 ∈ S ∧ e.2 ∉ S) ∨ (e.1 ∉ S ∧ e.2 ∈ S)

instance (edges : List (ℕ × ℕ)) (N : ℕ) : Decidable (CutConnected edges N) := by
  unfold CutConnected
  infer_instance

theorem eldScan_none_iff (used : Finset ℕ) :
    ∀ l : List (ℕ × ℕ), eldScan used l = none ↔
      ∀ e ∈ l, ((e.1 ∈ used) ↔ (e.2 ∈ used)) := by
  intro l
  induction l with
  | nil => simp [eldScan]
  | cons e rest ih =>
    rw [eldScan]
    by_cases hc : (decide (e.1 ∈ used) != decide (e.2 ∈ used)) = true
    · rw [if_pos hc]
      simp only [bne_iff_ne, ne_eq, decide_eq_decide] at hc
      simp only [List.mem_cons]
      constructor
      · intro h; cases h
      · intro h
        exact absurd (h e (Or.inl rfl)) hc
    · rw [if_neg hc]
      simp only [bne_iff_ne, ne_eq, decide_eq_decide, not_not] at hc
      simp only [Option.map_eq_none', ih, List.mem_cons]
      constructor
      · rintro h f (rfl | hf)
        · exact hc
        · exact h f hf
      · intro h f hf
        exact h f (Or.inr hf)

theorem eldScan_some_spec (used : Finset ℕ) :
    ∀ (l pre : List (ℕ × ℕ)) (e : ℕ × ℕ) (post : List (ℕ × ℕ)),
      eldScan used l = some (pre, e, post) →
      l = pre ++ e :: post ∧ ¬ ((e.1 ∈ used) ↔ (e.2 ∈ used)) := by
  intro l
  induction l with
  | nil => intro pre e post h; simp [eldScan] at h
  | cons f rest ih =>
    intro pre e post h
    rw [eldScan] at h
    by_cases hc : (decide (f.1 ∈ used) != decide (f.2 ∈ used)) = true
    · rw [if_pos hc] at h
      simp only [Option.some.injEq, Prod.mk.injEq] at h
      obtain ⟨h1, h2, h3⟩ := h
      subst h1; subst h2; subst h3
      simp only [bne_iff_ne, ne_eq, decide_eq_decide] at hc
      exact ⟨rfl, hc⟩
    · rw [if_neg hc] at h
      simp only [Option.map_eq_some'] at h
      obtain ⟨⟨pre', e', post'⟩, hrec, heq⟩ := h
      simp only [Prod.mk.injEq] at heq
      obtain ⟨h1, h2, h3⟩ := heq
      obtain ⟨hsplit, hxor⟩ := ih pre' e' post' hrec
      subst h2; subst h3
      constructor
      · rw [← h1, hsplit]; rfl
      · exact hxor

/-- When no available edge crosses the used set and every edge with an
unfinished endpoint is still available, connectivity forces the used set
to be all of `0..N-1`. -/
theorem eld_used_full (edges₀ : List (ℕ × ℕ)) (N : ℕ) (used : Finset ℕ)
    (avail : List (ℕ × ℕ)) (hconn : CutConnected edges₀ N)
    (hub : used ⊆ Finset.range N) (hnem : used.Nonempty)
    (hI2 : ∀ e ∈ edges₀, (e.1 ∉ used ∨ e.2 ∉ used) → e ∈ avail)
    (hnoxor : ∀ e ∈ avail, ((e.1 ∈ used) ↔ (e.2 ∈ used))) :
    used = Finset.range N := by
  by_contra hneq
  obtain ⟨e, he, hcross⟩ := hconn used (Finset.mem_powerset.mpr hub) hnem hneq
  rcases hcross with ⟨h1, h2⟩ | ⟨h1, h2⟩
  · exact h2 ((hnoxor e (hI2 e he (Or.inr h2))).mp h1)
  · exact h1 ((hnoxor e (hI2 e he (Or.inl h1))).mpr h2)

theorem out_perm_of_full (out : List ℕ) (N : ℕ) (hnd : out.Nodup)
    (hts : out.toFinset = Finset.range N) : out.Perm (List.range N) := by
  apply List.perm_of_nodup_nodup_toFinset_eq hnd (List.nodup_range N)
  rw [hts]
  ext a
  simp

theorem toFinset_full_of_length (out : List ℕ) (N : ℕ) (hnd : out.Nodup)
    (hsub : out.toFinset ⊆ Finset.range N) (hlen : out.length = N) :
    out.toFinset = Finset.range N := by
  apply Finset.eq_of_subset_of_card_le hsub
  rw [List.toFinset_card_of_nodup hnd, hlen, Finset.card_range]

/-- Main invariant argument for the left-deep encoder: on a connected
graph the loop ends with a permutation of `0..N-1`. -/
theorem eldLoop_perm (edges₀ : List (ℕ × ℕ)) (N : ℕ)
    (hval : ∀ e ∈ edges₀, e.1 < N ∧ e.2 < N)
    (hconn : CutConnected edges₀ N) :
    ∀ (fuel : ℕ) (avail : List (ℕ × ℕ)) (used : Finset ℕ) (out : List ℕ),
      avail.length ≤ fuel →
      (∀ e ∈ avail, e ∈ edges₀) →
      (∀ e ∈ edges₀, (e.1 ∉ used ∨ e.2 ∉ used) → e ∈ avail) →
      out.Nodup → out.toFinset = used → used ⊆ Finset.range N →
      used.Nonempty →
      (eldLoop N fuel avail used out).Perm (List.range N) := by
  intro fuel
  induction fuel with
  | zero =>
    intro avail used out hlen hsub hI2 hnd hts hub hnem
    have havail : avail = [] := List.eq_nil_of_length_eq_zero (by omega)
    subst havail
    rw [eldLoop]
    have hfull := eld_used_full edges₀ N used [] hconn hub hnem hI2
      (by intro e he; cases he)
    exact out_perm_of_full out N hnd (hts.trans hfull)
  | succ fuel ih =>
    intro avail used out hlen hsub hI2 hnd hts hub hnem
    rw [eldLoop]
    cases hscan : eldScan used avail with
    | none =>
      have hnoxor := (eldScan_none_iff used avail).mp hscan
      have hfull := eld_used_full edges₀ N used avail hconn hub hnem hI2 hnoxor
      exact out_perm_of_full out N hnd (hts.trans hfull)
    | some tr =>
      obtain ⟨pre, e, post⟩ := tr
      obtain ⟨hsplit, hxor⟩ := eldScan_some_spec used avail pre e post hscan
      dsimp only
      have heavail : e ∈ avail := by rw [hsplit]; simp
      have heN := hval e (hsub e heavail)
      set r := if e.1 ∈ used then e.2 else e.1 with hr
      have hrN : r < N := by
        rw [hr]; split
        · exact heN.2
        · exact heN.1
      have hrused : r ∉ used := by
        rw [hr]
        split
        · next h1 => exact fun h2 => hxor ⟨fun _ => h2, fun _ => h1⟩
        · next h1 => exact h1
      have hrout : r ∉ out := fun hmem => hrused (hts ▸ List.mem_toFinset.mpr hmem)
      have hnd' : (out ++ [r]).Nodup := by
        rw [List.nodup_append]
        refine ⟨hnd, List.nodup_singleton r, ?_⟩
        intro a ha hmem
        rw [List.mem_singleton] at hmem
        exact hrout (hmem ▸ ha)
      have hts' : (out ++ [r]).toFinset = insert r used := by
        ext a
        simp [hts.symm, or_comm]
      have hub' : insert r used ⊆ Finset.range N :=
        Finset.insert_subset (Finset.mem_range.mpr hrN) hub
      by_cases hdone : (out ++ [r]).length = N
      · rw [if_pos hdone]
        exact out_perm_of_full _ N hnd'
          (toFinset_full_of_length _ N hnd' (by rw [hts']; exact hub') hdone)
      · rw [if_neg hdone]
        apply ih
        · have hsa : avail.length = pre.length + (post.length + 1) := by
            rw [hsplit]; simp
          have hk : (eldKeep (insert r used) pre).length ≤ pre.length :=
            List.length_filter_le _ _
          rw [List.length_append]
          omega
        · intro f hf
          rcases List.mem_append.mp hf with hf | hf
          · exact hsub f (by
              rw [hsplit]
              exact List.mem_append.mpr (Or.inl (List.mem_of_mem_filter hf)))
          · exact hsub f (by rw [hsplit]; simp [hf])
        · intro f hfe hfunused
          have hfold : f.1 ∉ used ∨ f.2 ∉ used := by
            rcases hfunused with h | h
            · exact Or.inl fun hh => h (Finset.mem_insert_of_mem hh)
            · exact Or.inr fun hh => h (Finset.mem_insert_of_mem hh)
          have hfav : f ∈ avail := hI2 f hfe hfold
          rw [hsplit] at hfav
          rcases List.mem_append.mp hfav with hf | hf
          · refine List.mem_append.mpr (Or.inl ?_)
            refine List.mem_filter.mpr ⟨hf, ?_⟩
            simp only [Bool.or_eq_true, decide_eq_true_eq]
            exact hfunused
          · rcases List.mem_cons.mp hf with rfl | hf'
            · exfalso
              have h1 : f.1 ∈ insert r used := by
                rw [hr]
                by_cases hc : f.1 ∈ used
                · exact Finset.mem_insert_of_mem hc
                · rw [if_neg hc]; exact Finset.mem_insert_self _ _
              have h2 : f.2 ∈ insert r used := by
                rw [hr]
                by_cases hc : f.1 ∈ used
                · rw [if_pos hc]; exact Finset.mem_insert_self _ _
                · have : f.2 ∈ used := by
                    by_contra hc2
                    exact hxor ⟨fun h => absurd h hc, fun h => absurd h hc2⟩
                  exact Finset.mem_insert_of_mem this
              rcases hfunused with h | h
              · exact h h1
              · exact h h2
            · exact List.mem_append.mpr (Or.inr hf')
        · exact hnd'
        · exact hts'
        · exact hub'
        · exact ⟨r, Finset.mem_insert_self r used⟩

/-- Claim C6 (amended): for every edge list with valid distinct endpoints
whose join graph is **connected** over the `N ≥ 2` relations, the initial
left-deep encoding is a permutation of `0..N-1` (every index exactly
once); and every swap or 3-rotation neighbor state — accepted or failed —
is a permutation of its input state.  (On a disconnected but covering
edge list the C encoder stops early and leaves the element list partly
uninitialized, see the counterexample.) -/
theorem leftdeep_permutation (edges : List (ℕ × ℕ)) (N : ℕ)
    (hval : ∀ e ∈ edges, e.1 < N ∧ e.2 < N ∧ e.1 ≠ e.2)
    (hconn : CutConnected edges N) (hne : edges ≠ []) (hN : 2 ≤ N) :
    (encodeLeftDeepTree edges N).Perm (List.range N) ∧
    (∀ (adj : ℕ → ℕ → Bool) (elem : List ℕ) (useSwap : Bool) (idx : ℕ),
        (neighbordStateLeftDeep adj elem useSwap idx).1.Perm elem) := by
  refine ⟨?_, fun adj elem useSwap idx => neighbordStateLeftDeep_perm adj elem useSwap idx⟩
  match edges with
  | [] => exact absurd rfl hne
  | e0 :: rest =>
    obtain ⟨h1N, h2N, hne0⟩ := hval e0 (List.mem_cons_self _ _)
    rw [encodeLeftDeepTree]
    apply eldLoop_perm (e0 :: rest) N
      (fun e he => ⟨(hval e he).1, (hval e he).2.1⟩) hconn
    · exact le_rfl
    · exact fun e he => List.mem_cons_of_mem _ he
    · intro f hfe hfun
      rcases List.mem_cons.mp hfe with rfl | hf'
      · exfalso
        rcases hfun with h | h
        · exact h (by simp)
        · exact h (by simp)
      · exact hf'
    · simp [hne0]
    · ext a
      simp [or_comm]
    · intro a ha
      simp only [Finset.mem_insert, Finset.mem_singleton] at ha
      rcases ha with rfl | rfl
      · exact Finset.mem_range.mpr h1N
      · exact Finset.mem_range.mpr h2N
    · exact ⟨e0.1, Finset.mem_insert_self _ _⟩

/-- Witness for the amended C6 at a concrete connected input: the path
graph `0 - 1 - 2`. -/
theorem leftdeep_permutation_witness :
    CutConnected [(0, 1), (1, 2)] 3 ∧
      (encodeLeftDeepTree [(0, 1), (1, 2)] 3).Perm (List.range 3) :=
  ⟨by decide, (leftdeep_permutation [(0, 1), (1, 2)] 3 (by decide) (by decide)
    (by decide) (by norm_num)).1⟩

/-! ## TwoPO: bushy encoding (`encodeBushyTree`, `twopo.c:464-538`) and
bushy neighbor moves (`neighbordStateBushy`, `twopo.c:989-1051`) -/

/-- `convertIndex` (`twopo.c:424-428`): `f(x) = -x - 1`, used both to
encode and to decode join-element references in a bushy element list
(a negative slot `x` refers to join element `-x - 1`). -/
def convertIndex (idx : ℤ) : ℤ := -idx - 1

/-- `find_root` (`twopo.c:455-462`): follow the parent list to the root of
a union-find tree.  The C `while` loop is modelled with fuel; the
union-find invariant guarantees that fuel `N` (the number of nodes) always
reaches the root. -/
def find_root_fuel (parent : ℕ → ℕ) : ℕ → ℕ → ℕ
  | 0, i => i
  | f + 1, i => if parent i = i then i else find_root_fuel parent f (parent i)

/-- `find_root` with the fuel fixed to the node count. -/
def find_root (parent : ℕ → ℕ) (N i : ℕ) : ℕ := find_root_fuel parent N i

/-- State of the Kruskal-style spanning construction
(`encodeBushyTree`, `twopo.c:464-538`): the `parent` and `weight`
union-find arrays, the `subtrees` array mapping each tree root to the
encoding of its current subplan, the element list written so far
(`elementList`/`elementCount`), and `numSubtrees`. -/
structure KrState where
  parent : ℕ → ℕ
  weight : ℕ → ℕ
  subtrees : ℕ → ℤ
  elements : List (ℤ × ℤ)
  numSubtrees : ℕ

/-- Initialization (`twopo.c:490-497`): every node is its own root with
weight 1, `subtrees[i] = i`, no elements written. -/
def krInit (N : ℕ) : KrState :=
  ⟨fun i => i, fun _ => 1, fun i => (i : ℤ), [], N⟩

/-- One edge of the Kruskal loop (`twopo.c:502-533`): skip when only one
sub-tree remains (`numSubtrees > 1` is part of the loop condition) or both
endpoints share a root; otherwise `join_trees` (`twopo.c:440-449`) picks
the heavier root as the new root `a`, adds the weights, re-parents `b`,
writes the element `(subtrees[a], subtrees[b])`, and points `subtrees[a]`
at the new element. -/
def kruskalStep (N : ℕ) (st : KrState) (e : ℕ × ℕ) : KrState :=
  if st.numSubtrees ≤ 1 then st
  else
    let r1 := find_root st.parent N e.1
    let r2 := find_root st.parent N e.2
    if r1 = r2 then st
    else
      let a := if st.weight r2 > st.weight r1 then r2 else r1
      let b := if st.weight r2 > st.weight r1 then r1 else r2
      { parent := fun i => if i = b then st.parent a else st.parent i
        weight := fun i => if i = a then st.weight a + st.weight b else st.weight i
        subtrees := fun i =>
          if i = a then convertIndex (st.elements.length : ℤ) else st.subtrees i
        elements := st.elements ++ [(st.subtrees a, st.subtrees b)]
        numSubtrees := st.numSubtrees - 1 }

/-- `encodeBushyTree` (`twopo.c:464-538`): fold the Kruskal step over the
edge list.  When the loop ends with more than one sub-tree (disconnected
graph) the C code leaves `elementList[elementCount..numNodes-2]`
uninitialized; the model returns exactly the elements written. -/
def encodeBushyTree (edges : List (ℕ × ℕ)) (N : ℕ) : List (ℤ × ℤ) :=
  (edges.foldl (kruskalStep N) (krInit N)).elements

/-- `baserelsOfSubtree` (`twopo.c:922-945`): collect the base relations
under an encoded subtree, left child first.  The C recursion does not
terminate on a cyclic element list; the fuel (kept at `length + 1` by all
callers) models this, returning `none` on a cycle. -/
def baserelsOfSubtree (el : List (ℤ × ℤ)) : ℕ → ℤ → Option (List ℕ)
  | 0, _ => none
  | f + 1, v =>
      if 0 ≤ v then some [v.toNat]
      else
        match el[(convertIndex v).toNat]? with
        | none => none
        | some c =>
            match baserelsOfSubtree el f c.1, baserelsOfSubtree el f c.2 with
            | some l1, some l2 => some (l1 ++ l2)
            | _, _ => none

/-- The base relation referenced by a slot, if any. -/
def basePart (v : ℤ) : Multiset ℕ := if 0 ≤ v then {v.toNat} else 0

/-- The join element referenced by a slot, if any. -/
def refPart (v : ℤ) : Multiset ℕ := if v < 0 then {(convertIndex v).toNat} else 0

/-- All slot values of an element list, as a multiset. -/
def slotsOf (el : List (ℤ × ℤ)) : Multiset ℤ :=
  (el.map fun c => (c.1 ::ₘ {c.2} : Multiset ℤ)).sum

/-- The multiset of base relations appearing as leaves across all join
elements (spec §3: exactly the `N` units, each exactly once). -/
def basesOf (el : List (ℤ × ℤ)) : Multiset ℕ := (slotsOf el).bind basePart

/-- The multiset of join-element indices referenced across all slots. -/
def refsOf (el : List (ℤ × ℤ)) : Multiset ℕ := (slotsOf el).bind refPart

/-- A slot of element `i` is valid for `N` base relations and respects the
build order: a base relation below `N`, or a reference to a join element
built strictly earlier. -/
def SlotOrdOK (N i : ℕ) (v : ℤ) : Prop :=
  (0 ≤ v ∧ v.toNat < N) ∨ (v < 0 ∧ (convertIndex v).toNat < i)

instance (N i : ℕ) (v : ℤ) : Decidable (SlotOrdOK N i v) := by
  unfold SlotOrdOK; infer_instance

/-- The build-order property of a bushy element list: every element's
children are base relations or earlier join elements. -/
def OrderOK (N : ℕ) (el : List (ℤ × ℤ)) : Prop :=
  ∀ i < el.length, SlotOrdOK N i (el.getD i (0, 0)).1 ∧ SlotOrdOK N i (el.getD i (0, 0)).2

instance (N : ℕ) (el : List (ℤ × ℤ)) : Decidable (OrderOK N el) := by
  unfold OrderOK; infer_instance

/-- Read child slot `s` (`false` = `child[0]`, `true` = `child[1]`) of
element `p`. -/
def getSlot (el : List (ℤ × ℤ)) (p : ℕ) (s : Bool) : ℤ :=
  if s then (el.getD p (0, 0)).2 else (el.getD p (0, 0)).1

/-- Overwrite child slot `s` of element `p`. -/
def setSlot (el : List (ℤ × ℤ)) (p : ℕ) (s : Bool) (v : ℤ) : List (ℤ × ℤ) :=
  el.set p (if s then ((el.getD p (0, 0)).1, v) else (v, (el.getD p (0, 0)).2))

/-- `swapValues(int, *child, *uncle)` (`twopo.c:1035`): exchange the
contents of two child slots. -/
def swapSlots (el : List (ℤ × ℤ)) (p1 : ℕ) (s1 : Bool) (p2 : ℕ) (s2 : Bool) :
    List (ℤ × ℤ) :=
  setSlot (setSlot el p1 s1 (getSlot el p2 s2)) p2 s2 (getSlot el p1 s1)

/-- `hasEdgeBetweenSubtrees` (`twopo.c:947-987`): some base relation under
the first subtree is adjacent to some base relation under the second. -/
def hasEdgeBetweenSubtrees (adj : ℕ → ℕ → Bool) (el : List (ℤ × ℤ))
    (v1 v2 : ℤ) : Bool :=
  match baserelsOfSubtree el (el.length + 1) v1,
      baserelsOfSubtree el (el.length + 1) v2 with
  | some l1, some l2 => l1.any fun a => l2.any fun b => adj a b
  | _, _ => false

/-- One attempt of `neighbordStateBushy` (`twopo.c:989-1051`) at the
randomly chosen join element `p`: take the first join-valued child as
`father` (the `i` loop with the `swapValues(int*, father, uncle)` pointer
swap), then try the father's children as `child`/`brother` in both
orientations (the `j` loop), and apply the `child ↔ uncle` swap for the
first orientation where `hasEdgeBetweenSubtrees(uncle, brother)` holds.
`none` models a failed attempt (the `while (!ok)` loop then redraws `p`);
the states reached by the move are exactly the `some` results. -/
def bushyAttempt (adj : ℕ → ℕ → Bool) (el : List (ℤ × ℤ)) (p : ℕ) :
    Option (List (ℤ × ℤ)) :=
  match el[p]? with
  | none => none
  | some j =>
      if j.1 < 0 then
        let cf := (convertIndex j.1).toNat
        if hasEdgeBetweenSubtrees adj el j.2 (getSlot el cf true) then
          some (swapSlots el cf false p true)
        else if hasEdgeBetweenSubtrees adj el j.2 (getSlot el cf false) then
          some (swapSlots el cf true p true)
        else none
      else if j.2 < 0 then
        let cf := (convertIndex j.2).toNat
        if hasEdgeBetweenSubtrees adj el j.1 (getSlot el cf true) then
          some (swapSlots el cf false p false)
        else if hasEdgeBetweenSubtrees adj el j.1 (getSlot el cf false) then
          some (swapSlots el cf true p false)
        else none
      else none

/-- The reference the slot makes to a join element, if any. -/
def refSlot (v : ℤ) : Option ℕ :=
  if v < 0 then some (convertIndex v).toNat else none

/-- Element `i` references element `j` through one of its child slots. -/
def RefsR (el : List (ℤ × ℤ)) (i j : ℕ) : Prop :=
  i < el.length ∧
    (refSlot (el.getD i (0, 0)).1 = some j ∨ refSlot (el.getD i (0, 0)).2 = some j)

/-- No self-referential cycles: no chain of child references closes on
itself. -/
def AcyclicEl (el : List (ℤ × ℤ)) : Prop :=
  ∀ i j, RefsR el i j → ¬ Relation.ReflTransGen (RefsR el) j i

/-- Counterexample to C7 as stated, on both counts.  First, an accepted
bushy neighbor move violates the strict build order: starting from the
valid state `[(0,1), (2,3), (-1,-2)]` (a tree joining `(0⋈1)` with
`(2⋈3)`) with a complete join graph, the move at element 2 swaps the
grandchild `0` with the uncle `-2`, producing `[(-2,1), (2,3), (-1,0)]`
in which element 0 references element 1 — a child with a *larger* build
order.  Second, on the disconnected but covering edge list
`[(0,1), (2,3)]` over 4 relations the Kruskal loop writes only 2 of the
required `N - 1 = 3` elements, leaving the last uninitialized. -/
theorem bushy_counterexample :
    bushyAttempt (fun _ _ => true) [(0, 1), (2, 3), (-1, -2)] 2 =
      some [(-2, 1), (2, 3), (-1, 0)] ∧
    OrderOK 4 [(0, 1), (2, 3), (-1, -2)] ∧
    ¬ OrderOK 4 [(-2, 1), (2, 3), (-1, 0)] ∧
    encodeBushyTree [(0, 1), (2, 3)] 4 = [(0, 1), (2, 3)] ∧
    (encodeBushyTree [(0, 1), (2, 3)] 4).length ≠ 4 - 1 := by
  decide

/-! ### Union-find correctness (`find_root`, `join_trees`) -/

theorem iterate_lt (parent : ℕ → ℕ) (N : ℕ) (hcl : ∀ i < N, parent i < N) :
    ∀ (k i : ℕ), i < N → parent^[k] i < N := by
  intro k
  induction k with
  | zero => intro i h; simpa using h
  | succ k ih =>
    intro i h
    rw [Function.iterate_succ_apply]
    exact ih (parent i) (hcl i h)

theorem find_root_fuel_eq (parent : ℕ → ℕ) :
    ∀ (f k i r : ℕ), k ≤ f → parent^[k] i = r → parent r = r →
      find_root_fuel parent f i = r := by
  intro f
  induction f with
  | zero =>
    intro k i r hk hit hr
    have hk0 : k = 0 := by omega
    subst hk0
    simpa using hit
  | succ f ih =>
    intro k i r hk hit hr
    rw [find_root_fuel]
    by_cases hpi : parent i = i
    · rw [if_pos hpi]
      have hfix : parent^[k] i = i := Function.iterate_fixed hpi k
      rw [hfix] at hit
      exact hit
    · rw [if_neg hpi]
      match k with
      | 0 =>
        simp only [Function.iterate_zero, id_eq] at hit
        subst hit
        exact absurd hr hpi
      | k + 1 =>
        apply ih k (parent i) r (by omega) _ hr
        rw [← Function.iterate_succ_apply]
        exact hit

theorem repr_unique (parent : ℕ → ℕ) {i r1 r2 k1 k2 : ℕ}
    (h1 : parent^[k1] i = r1) (hr1 : parent r1 = r1)
    (h2 : parent^[k2] i = r2) (hr2 : parent r2 = r2) : r1 = r2 := by
  rcases le_total k1 k2 with h | h
  · have key : parent^[k2] i = parent^[k2 - k1] (parent^[k1] i) := by
      rw [← Function.iterate_add_apply]
      congr 1
      omega
    rw [h1, Function.iterate_fixed hr1, h2] at key
    exact key.symm
  · have key : parent^[k1] i = parent^[k1 - k2] (parent^[k2] i) := by
      rw [← Function.iterate_add_apply]
      congr 1
      omega
    rw [h2, Function.iterate_fixed hr2, h1] at key
    exact key

/-- The union-find invariant: the parent array is closed below `N` and
every node reaches a fixpoint in fewer than `N` steps. -/
def UFInv (N : ℕ) (parent : ℕ → ℕ) : Prop :=
  (∀ i < N, parent i < N) ∧
  (∀ i < N, ∃ k r, k < N ∧ parent^[k] i = r ∧ parent r = r)

theorem find_root_spec (N : ℕ) (parent : ℕ → ℕ) (h : UFInv N parent)
    (i : ℕ) (hi : i < N) :
    parent (find_root parent N i) = find_root parent N i ∧
    find_root parent N i < N ∧
    ∃ k, k < N ∧ parent^[k] i = find_root parent N i := by
  obtain ⟨k, r, hk, hit, hr⟩ := h.2 i hi
  have heq : find_root parent N i = r :=
    find_root_fuel_eq parent N k i r (by omega) hit hr
  rw [heq]
  exact ⟨hr, hit ▸ iterate_lt parent N h.1 k i hi, k, hk, hit⟩

/-- A root is its own `find_root`. -/
theorem find_root_of_root (N : ℕ) (parent : ℕ → ℕ) (r : ℕ)
    (hr : parent r = r) : find_root parent N r = r :=
  find_root_fuel_eq parent N 0 r r (by omega) rfl hr

/-- Effect of the `join_trees` re-parenting (`parent[root2] = parent[root1]`,
`twopo.c:447`) on the whole union-find structure: the invariant is kept
and every `find_root` value changes exactly by redirecting `b` to `a`. -/
theorem uf_update (N : ℕ) (parent : ℕ → ℕ) (hinv : UFInv N parent)
    (a b : ℕ) (haN : a < N) (hbN : b < N) (hab : a ≠ b)
    (hra : parent a = a) (hrb : parent b = b) :
    UFInv N (fun i => if i = b then a else parent i) ∧
    (∀ i < N,
      find_root (fun i => if i = b then a else parent i) N i =
        (if find_root parent N i = b then a else find_root parent N i)) := by
  set parent' : ℕ → ℕ := fun i => if i = b then a else parent i with hp'
  have hcl' : ∀ i < N, parent' i < N := by
    intro i hi
    rw [hp']
    dsimp only
    split
    · exact haN
    · exact hinv.1 i hi
  have hra' : parent' a = a := by
    rw [hp']; dsimp only; rw [if_neg hab, hra]
  -- main case analysis for each node
  have main : ∀ i < N, ∃ k, k < N ∧
      parent'^[k] i = (if find_root parent N i = b then a else find_root parent N i) ∧
      parent' (if find_root parent N i = b then a else find_root parent N i) =
        (if find_root parent N i = b then a else find_root parent N i) := by
    intro i hi
    obtain ⟨hroot, hrN, k, hk, hit⟩ := find_root_spec N parent hinv i hi
    set r := find_root parent N i with hrdef
    by_cases hrb2 : r = b
    · rw [if_pos hrb2]
      subst hrb2
      -- the chain from i reaches b; take the first hit
      have hex : ∃ m, parent^[m] i = r := ⟨k, hit⟩
      set k0 := Nat.find hex with hk0def
      have hk0 : parent^[k0] i = r := Nat.find_spec hex
      have hk0min : ∀ m < k0, parent^[m] i ≠ r := fun m hm => Nat.find_min hex hm
      -- the prefix of the chain avoids b, so parent' follows it unchanged
      have hpre : ∀ m ≤ k0, parent'^[m] i = parent^[m] i := by
        intro m hm
        induction m with
        | zero => rfl
        | succ m ihm =>
          rw [Function.iterate_succ_apply', Function.iterate_succ_apply',
            ihm (by omega)]
          rw [hp']
          dsimp only
          rw [if_neg (hk0min m (by omega))]
      -- the visited prefix is injective and avoids a, so k0 + 1 < N
      have hinj : ∀ m1 < k0, ∀ m2 ≤ k0, m1 < m2 → parent^[m1] i ≠ parent^[m2] i := by
        intro m1 hm1 m2 hm2 hlt heq
        have : parent^[k0 - m2 + m1] i = parent^[k0] i := by
          have e1 : parent^[k0 - m2 + m1] i = parent^[k0 - m2] (parent^[m1] i) :=
            Function.iterate_add_apply parent (k0 - m2) m1 i
          have e2 : parent^[k0] i = parent^[k0 - m2] (parent^[m2] i) := by
            rw [← Function.iterate_add_apply]
            congr 1
            omega
          rw [e1, heq, ← e2]
        exact hk0min (k0 - m2 + m1) (by omega) (this.trans hk0)
      have havoid : ∀ m ≤ k0, parent^[m] i ≠ a := by
        intro m hm heq
        have : parent^[k0] i = a := by
          have : parent^[k0] i = parent^[k0 - m] (parent^[m] i) := by
            rw [← Function.iterate_add_apply]
            congr 1
            omega
          rw [this, heq, Function.iterate_fixed hra]
        rw [hk0] at this
        exact hab (by rw [← this])
      have hbound : k0 + 1 < N := by
        have hcard : (Finset.range (k0 + 1)).card ≤ ((Finset.range N).erase a).card := by
          apply Finset.card_le_card_of_injOn (fun m => parent^[m] i)
          · intro m hm
            rw [Finset.mem_range] at hm
            rw [Finset.mem_erase]
            exact ⟨havoid m (by omega), Finset.mem_range.mpr (iterate_lt parent N hinv.1 m i hi)⟩
          · intro m1 h1 m2 h2 heq
            rw [Finset.coe_range, Set.mem_Iio] at h1 h2
            by_contra hne
            rcases Nat.lt_or_ge m1 m2 with hlt | hge
            · exact hinj m1 (by omega) m2 (by omega) hlt heq
            · exact hinj m2 (by omega) m1 (by omega) (by omega) heq.symm
        rw [Finset.card_range, Finset.card_erase_of_mem (Finset.mem_range.mpr haN),
          Finset.card_range] at hcard
        omega
      refine ⟨k0 + 1, hbound, ?_, hra'⟩
      rw [Function.iterate_succ_apply', hpre k0 le_rfl, hk0, hp']
      dsimp only
      rw [if_pos rfl]
    · rw [if_neg hrb2]
      -- the whole chain avoids b
      have hnb : ∀ m, parent^[m] i ≠ b := by
        intro m heq
        rcases le_total m k with hm | hm
        · have : parent^[k] i = parent^[k - m] (parent^[m] i) := by
            rw [← Function.iterate_add_apply]
            congr 1
            omega
          rw [heq, Function.iterate_fixed hrb] at this
          exact hrb2 (by rw [← hit, this])
        · have : parent^[m] i = parent^[m - k] (parent^[k] i) := by
            rw [← Function.iterate_add_apply]
            congr 1
            omega
          rw [hit, Function.iterate_fixed hroot] at this
          exact hrb2 (by rw [← this, heq])
      have hall : ∀ m, parent'^[m] i = parent^[m] i := by
        intro m
        induction m with
        | zero => rfl
        | succ m ihm =>
          rw [Function.iterate_succ_apply', Function.iterate_succ_apply', ihm, hp']
          dsimp only
          rw [if_neg (hnb m)]
      refine ⟨k, hk, by rw [hall, hit], ?_⟩
      rw [hp']
      dsimp only
      rw [if_neg hrb2, hroot]
  constructor
  · refine ⟨hcl', ?_⟩
    intro i hi
    obtain ⟨k, hk, hit, hfix⟩ := main i hi
    exact ⟨k, _, hk, hit, hfix⟩
  · intro i hi
    obtain ⟨k, hk, hit, hfix⟩ := main i hi
    exact find_root_fuel_eq parent' N k i _ (by omega) hit hfix

/-! ### Decode and multiset bookkeeping lemmas -/

theorem baserels_append (el el2 : List (ℤ × ℤ)) :
    ∀ (f : ℕ) (v : ℤ) (L : List ℕ), baserelsOfSubtree el f v = some L →
      baserelsOfSubtree (el ++ el2) f v = some L := by
  intro f
  induction f with
  | zero => intro v L h; cases h
  | succ f ih =>
    intro v L h
    rw [baserelsOfSubtree] at h ⊢
    by_cases h0 : 0 ≤ v
    · rw [if_pos h0] at h ⊢
      exact h
    · rw [if_neg h0] at h ⊢
      cases hel : el[(convertIndex v).toNat]? with
      | none => rw [hel] at h; cases h
      | some c =>
        rw [hel] at h
        have hlt : (convertIndex v).toNat < el.length :=
          (List.getElem?_eq_some.mp hel).1
        rw [List.getElem?_append_left hlt, hel]
        dsimp only at h ⊢
        cases h1 : baserelsOfSubtree el f c.1 with
        | none => rw [h1] at h; cases h
        | some l1 =>
          cases h2 : baserelsOfSubtree el f c.2 with
          | none => rw [h1, h2] at h; cases h
          | some l2 =>
            rw [h1, h2] at h
            rw [ih c.1 l1 h1, ih c.2 l2 h2]
            exact h

theorem baserels_fuel_le (el : List (ℤ × ℤ)) :
    ∀ (f g : ℕ) (v : ℤ) (L : List ℕ), f ≤ g →
      baserelsOfSubtree el f v = some L → baserelsOfSubtree el g v = some L := by
  intro f
  induction f with
  | zero => intro g v L _ h; cases h
  | succ f ih =>
    intro g v L hfg h
    match g with
    | 0 => omega
    | g + 1 =>
      rw [baserelsOfSubtree] at h ⊢
      by_cases h0 : 0 ≤ v
      · rw [if_pos h0] at h ⊢
        exact h
      · rw [if_neg h0] at h ⊢
        cases hel : el[(convertIndex v).toNat]? with
        | none => rw [hel] at h; cases h
        | some c =>
          rw [hel] at h
          dsimp only at h ⊢
          cases h1 : baserelsOfSubtree el f c.1 with
          | none => rw [h1] at h; cases h
          | some l1 =>
            cases h2 : baserelsOfSubtree el f c.2 with
            | none => rw [h1, h2] at h; cases h
            | some l2 =>
              rw [h1, h2] at h
              rw [ih g c.1 l1 (by omega) h1, ih g c.2 l2 (by omega) h2]
              exact h

theorem slotsOf_append (el el2 : List (ℤ × ℤ)) :
    slotsOf (el ++ el2) = slotsOf el + slotsOf el2 := by
  simp [slotsOf]

theorem slotsOf_pair (x y : ℤ) : slotsOf [(x, y)] = x ::ₘ {y} := by
  simp [slotsOf]

theorem basesOf_append (el el2 : List (ℤ × ℤ)) :
    basesOf (el ++ el2) = basesOf el + basesOf el2 := by
  simp [basesOf, slotsOf_append, Multiset.add_bind]

theorem refsOf_append (el el2 : List (ℤ × ℤ)) :
    refsOf (el ++ el2) = refsOf el + refsOf el2 := by
  simp [refsOf, slotsOf_append, Multiset.add_bind]

theorem basesOf_pair (x y : ℤ) : basesOf [(x, y)] = basePart x + basePart y := by
  simp [basesOf, slotsOf_pair, Multiset.cons_bind, Multiset.singleton_bind]

theorem refsOf_pair (x y : ℤ) : refsOf [(x, y)] = refPart x + refPart y := by
  simp [refsOf, slotsOf_pair, Multiset.cons_bind, Multiset.singleton_bind]

theorem basesOf_nil : basesOf [] = 0 := rfl

theorem refsOf_nil : refsOf [] = 0 := rfl

theorem sum_singleton_val (s : Finset ℕ) :
    (Finset.sum s fun r => ({r} : Multiset ℕ)) = s.val := by
  induction s using Finset.induction_on with
  | empty => simp
  | insert hnot ih =>
    next a s =>
      rw [Finset.sum_insert hnot, ih, Finset.insert_val_of_not_mem hnot,
        ← Multiset.singleton_add]

theorem SlotOrdOK_mono (N : ℕ) {i j : ℕ} (hij : i ≤ j) {v : ℤ}
    (h : SlotOrdOK N i v) : SlotOrdOK N j v := by
  rcases h with h | h
  · exact Or.inl h
  · exact Or.inr ⟨h.1, by omega⟩

/-- The set of current union-find roots. -/
def RootsOf (parent : ℕ → ℕ) (N : ℕ) : Finset ℕ :=
  (Finset.range N).filter fun r => parent r = r

/-- The component (fiber of `find_root`) of a root. -/
def classOf (parent : ℕ → ℕ) (N : ℕ) (r : ℕ) : Finset ℕ :=
  (Finset.range N).filter fun i => find_root parent N i = r

/-- Full invariant of the Kruskal construction: union-find is sound, the
counters agree, the elements already written are well ordered, and each
root's `subtrees` entry decodes to exactly its component, with the base
and reference slots accounting for exactly the `N` relations and the
written elements. -/
structure KInv (N : ℕ) (st : KrState) : Prop where
  uf : UFInv N st.parent
  nsub : st.numSubtrees = (RootsOf st.parent N).card
  elen : st.elements.length + st.numSubtrees = N
  order : OrderOK N st.elements
  slots : ∀ r ∈ RootsOf st.parent N, SlotOrdOK N st.elements.length (st.subtrees r)
  decode : ∀ r ∈ RootsOf st.parent N, ∃ L : List ℕ,
    baserelsOfSubtree st.elements (st.elements.length + 1) (st.subtrees r) = some L ∧
    (↑L : Multiset ℕ) = (classOf st.parent N r).val
  bases : basesOf st.elements +
    Finset.sum (RootsOf st.parent N) (fun r => basePart (st.subtrees r)) =
      Multiset.range N
  refs : refsOf st.elements +
    Finset.sum (RootsOf st.parent N) (fun r => refPart (st.subtrees r)) =
      Multiset.range st.elements.length

theorem krInit_inv (N : ℕ) : KInv N (krInit N) := by
  have hroots : RootsOf (krInit N).parent N = Finset.range N := by
    unfold RootsOf krInit
    exact Finset.filter_true_of_mem fun r _ => rfl
  have hfr : ∀ i, find_root (krInit N).parent N i = i := fun i =>
    find_root_of_root N _ i rfl
  refine ⟨⟨fun i h => h, fun i hi => ⟨0, i, by omega, rfl, rfl⟩⟩, ?_, ?_, ?_, ?_, ?_, ?_, ?_⟩
  · rw [hroots, Finset.card_range]; rfl
  · simp [krInit]
  · intro i hi; simp [krInit] at hi
  · intro r hr
    rw [hroots, Finset.mem_range] at hr
    exact Or.inl ⟨Int.natCast_nonneg r, by simpa using hr⟩
  · intro r hr
    rw [hroots, Finset.mem_range] at hr
    refine ⟨[r], ?_, ?_⟩
    · show baserelsOfSubtree [] 1 ((r : ℕ) : ℤ) = some [r]
      rw [baserelsOfSubtree, if_pos (Int.natCast_nonneg r)]
      simp
    · have : classOf (krInit N).parent N r = {r} := by
        unfold classOf
        ext i
        simp only [Finset.mem_filter, Finset.mem_range, hfr, Finset.mem_singleton]
        constructor
        · rintro ⟨-, rfl⟩; rfl
        · rintro rfl; exact ⟨hr, rfl⟩
      rw [this]
      simp
  · rw [hroots]
    show basesOf [] + (Finset.sum (Finset.range N) fun r => basePart ((r : ℕ) : ℤ)) =
      Multiset.range N
    rw [basesOf_nil, zero_add]
    have : ∀ r ∈ Finset.range N, basePart ((r : ℕ) : ℤ) = ({r} : Multiset ℕ) := by
      intro r _
      unfold basePart
      rw [if_pos (Int.natCast_nonneg r)]
      simp
    rw [Finset.sum_congr rfl this, sum_singleton_val, Finset.range_val]
  · rw [hroots]
    show refsOf [] + (Finset.sum (Finset.range N) fun r => refPart ((r : ℕ) : ℤ)) =
      Multiset.range ([] : List (ℤ × ℤ)).length
    rw [refsOf_nil, zero_add]
    have : ∀ r ∈ Finset.range N, refPart ((r : ℕ) : ℤ) = (0 : Multiset ℕ) := by
      intro r _
      unfold refPart
      rw [if_neg (by omega)]
    rw [Finset.sum_congr rfl this]
    simp

/-! ### convertIndex arithmetic and slot-multiset membership -/

theorem convertIndex_natCast_neg (n : ℕ) : ¬ 0 ≤ convertIndex (n : ℤ) := by
  unfold convertIndex; omega

theorem convertIndex_lt_zero (n : ℕ) : convertIndex (n : ℤ) < 0 := by
  unfold convertIndex; omega

theorem convertIndex_invol_toNat (n : ℕ) :
    (convertIndex (convertIndex (n : ℤ))).toNat = n := by
  unfold convertIndex; omega

theorem slotsOf_cons (c : ℤ × ℤ) (el : List (ℤ × ℤ)) :
    slotsOf (c :: el) = (c.1 ::ₘ {c.2}) + slotsOf el := by
  simp [slotsOf]

theorem mem_slotsOf_iff (v : ℤ) (el : List (ℤ × ℤ)) :
    v ∈ slotsOf el ↔ ∃ c ∈ el, v = c.1 ∨ v = c.2 := by
  induction el with
  | nil => simp [slotsOf]
  | cons c t ih =>
    rw [slotsOf_cons]
    simp only [Multiset.mem_add, Multiset.mem_cons, Multiset.mem_singleton, ih,
      List.mem_cons]
    constructor
    · rintro ((h | h) | ⟨d, hd, hor⟩)
      · exact ⟨c, Or.inl rfl, Or.inl h⟩
      · exact ⟨c, Or.inl rfl, Or.inr h⟩
      · exact ⟨d, Or.inr hd, hor⟩
    · rintro ⟨d, (rfl | hd), hor⟩
      · exact Or.inl hor
      · exact Or.inr ⟨d, hd, hor⟩

theorem slot_mem_slotsOf (el : List (ℤ × ℤ)) (i : ℕ) (h : i < el.length) :
    (el.getD i (0, 0)).1 ∈ slotsOf el ∧ (el.getD i (0, 0)).2 ∈ slotsOf el := by
  have hmem : el.getD i (0, 0) ∈ el := by
    rw [List.getD_eq_getElem el (0, 0) h]
    exact List.getElem_mem h
  exact ⟨(mem_slotsOf_iff _ el).mpr ⟨_, hmem, Or.inl rfl⟩,
    (mem_slotsOf_iff _ el).mpr ⟨_, hmem, Or.inr rfl⟩⟩

/-! ### Build order implies acyclicity -/

theorem orderOK_down (N : ℕ) (el : List (ℤ × ℤ)) (h : OrderOK N el) :
    ∀ i j, RefsR el i j → j < i := by
  rintro i j ⟨hi, hor⟩
  obtain ⟨h1, h2⟩ := h i hi
  rcases hor with hs | hs
  · simp only [refSlot] at hs
    by_cases hv : (el.getD i (0, 0)).1 < 0
    · rw [if_pos hv] at hs
      have hj := Option.some.inj hs
      rcases h1 with ⟨hge, _⟩ | ⟨_, hlt⟩
      · omega
      · omega
    · rw [if_neg hv] at hs
      exact absurd hs (by simp)
  · simp only [refSlot] at hs
    by_cases hv : (el.getD i (0, 0)).2 < 0
    · rw [if_pos hv] at hs
      have hj := Option.some.inj hs
      rcases h2 with ⟨hge, _⟩ | ⟨_, hlt⟩
      · omega
      · omega
    · rw [if_neg hv] at hs
      exact absurd hs (by simp)

theorem reflTransGen_le (el : List (ℤ × ℤ)) (hdown : ∀ i j, RefsR el i j → j < i) :
    ∀ x y, Relation.ReflTransGen (RefsR el) x y → y ≤ x := by
  intro x y h
  induction h with
  | refl => exact le_refl x
  | tail h1 h2 ih =>
    have := hdown _ _ h2
    omega

theorem orderOK_acyclic (N : ℕ) (el : List (ℤ × ℤ)) (h : OrderOK N el) :
    AcyclicEl el := by
  intro i j hij hRT
  have h1 := orderOK_down N el h i j hij
  have h2 := reflTransGen_le el (orderOK_down N el h) j i hRT
  omega

/-! ### Bushy neighbor moves preserve the slot multiset -/

theorem slotsOf_set :
    ∀ (el : List (ℤ × ℤ)) (p : ℕ), p < el.length → ∀ (c : ℤ × ℤ),
      slotsOf (el.set p c) + ((el.getD p (0, 0)).1 ::ₘ {(el.getD p (0, 0)).2}) =
        slotsOf el + (c.1 ::ₘ {c.2}) := by
  intro el
  induction el with
  | nil => intro p hp; simp at hp
  | cons x t ih =>
    intro p hp c
    match p with
    | 0 =>
      rw [List.set_cons_zero, List.getD_cons_zero, slotsOf_cons, slotsOf_cons]
      abel
    | p + 1 =>
      rw [List.set_cons_succ, List.getD_cons_succ, slotsOf_cons, slotsOf_cons]
      have hih := ih p (by simpa using hp) c
      rw [add_assoc, hih, ← add_assoc]

theorem length_setSlot (el : List (ℤ × ℤ)) (p : ℕ) (s : Bool) (v : ℤ) :
    (setSlot el p s v).length = el.length := by
  rw [setSlot, List.length_set]

theorem slotsOf_setSlot (el : List (ℤ × ℤ)) (p : ℕ) (s : Bool) (v : ℤ)
    (hp : p < el.length) :
    slotsOf (setSlot el p s v) + {getSlot el p s} = slotsOf el + {v} := by
  cases s
  · show slotsOf (el.set p (v, (el.getD p (0, 0)).2)) + {(el.getD p (0, 0)).1} =
      slotsOf el + {v}
    have hset := slotsOf_set el p hp (v, (el.getD p (0, 0)).2)
    rw [← Multiset.singleton_add, ← Multiset.singleton_add, ← add_assoc,
      ← add_assoc] at hset
    exact add_right_cancel hset
  · show slotsOf (el.set p ((el.getD p (0, 0)).1, v)) + {(el.getD p (0, 0)).2} =
      slotsOf el + {v}
    have hset := slotsOf_set el p hp ((el.getD p (0, 0)).1, v)
    rw [← Multiset.singleton_add, ← Multiset.singleton_add, ← add_assoc,
      ← add_assoc] at hset
    set A := slotsOf (el.set p ((el.getD p (0, 0)).1, v)) with hA
    set B := slotsOf el with hB
    set g1 := (el.getD p (0, 0)).1 with hg1
    set g2 := (el.getD p (0, 0)).2 with hg2
    apply add_right_cancel (b := ({g1} : Multiset ℤ))
    calc A + {g2} + {g1} = A + {g1} + {g2} := add_right_comm A {g2} {g1}
      _ = B + {g1} + {v} := hset
      _ = B + {v} + {g1} := add_right_comm B {g1} {v}

theorem getD_setSlot_ne (el : List (ℤ × ℤ)) (p1 : ℕ) (s1 : Bool) (v : ℤ)
    (p2 : ℕ) (h : p1 ≠ p2) :
    (setSlot el p1 s1 v).getD p2 (0, 0) = el.getD p2 (0, 0) := by
  rw [setSlot, List.getD_eq_getElem?_getD, List.getD_eq_getElem?_getD,
    List.getElem?_set_ne h]
  rw [← List.getD_eq_getElem?_getD]

theorem getD_setSlot_self (el : List (ℤ × ℤ)) (p1 : ℕ) (s1 : Bool) (v : ℤ)
    (h : p1 < el.length) :
    (setSlot el p1 s1 v).getD p1 (0, 0) =
      (if s1 then ((el.getD p1 (0, 0)).1, v) else (v, (el.getD p1 (0, 0)).2)) := by
  rw [setSlot, List.getD_eq_getElem?_getD, List.getElem?_set_self h]
  rfl

theorem getSlot_setSlot_swap (el : List (ℤ × ℤ)) (p1 p2 : ℕ) (s1 s2 : Bool)
    (hp1 : p1 < el.length) :
    getSlot (setSlot el p1 s1 (getSlot el p2 s2)) p2 s2 = getSlot el p2 s2 := by
  by_cases hp : p1 = p2
  · subst hp
    have hD := getD_setSlot_self el p1 s1 (getSlot el p1 s2) hp1
    cases s1 <;> cases s2
    · show ((setSlot el p1 false (getSlot el p1 false)).getD p1 (0, 0)).1 =
        (el.getD p1 (0, 0)).1
      rw [hD]; simp [getSlot]
    · show ((setSlot el p1 false (getSlot el p1 true)).getD p1 (0, 0)).2 =
        (el.getD p1 (0, 0)).2
      rw [hD]; simp [getSlot]
    · show ((setSlot el p1 true (getSlot el p1 false)).getD p1 (0, 0)).1 =
        (el.getD p1 (0, 0)).1
      rw [hD]; simp [getSlot]
    · show ((setSlot el p1 true (getSlot el p1 true)).getD p1 (0, 0)).2 =
        (el.getD p1 (0, 0)).2
      rw [hD]; simp [getSlot]
  · simp only [getSlot]
    rw [getD_setSlot_ne el p1 s1 _ p2 hp]

theorem length_swapSlots (el : List (ℤ × ℤ)) (p1 p2 : ℕ) (s1 s2 : Bool) :
    (swapSlots el p1 s1 p2 s2).length = el.length := by
  rw [swapSlots, length_setSlot, length_setSlot]

theorem slotsOf_swapSlots (el : List (ℤ × ℤ)) (p1 p2 : ℕ) (s1 s2 : Bool)
    (hp1 : p1 < el.length) (hp2 : p2 < el.length) :
    slotsOf (swapSlots el p1 s1 p2 s2) = slotsOf el := by
  have h1 := slotsOf_setSlot el p1 s1 (getSlot el p2 s2) hp1
  have hlen : p2 < (setSlot el p1 s1 (getSlot el p2 s2)).length := by
    rw [length_setSlot]; exact hp2
  have h2 := slotsOf_setSlot (setSlot el p1 s1 (getSlot el p2 s2)) p2 s2
    (getSlot el p1 s1) hlen
  rw [getSlot_setSlot_swap el p1 p2 s1 s2 hp1] at h2
  apply add_right_cancel (b := ({getSlot el p2 s2} : Multiset ℤ))
  rw [swapSlots, h2, h1]

/-- Any accepted bushy neighbor move (`neighbordStateBushy`,
`twopo.c:989-1051`) preserves the multiset of base-relation leaves, the
multiset of join-element references, and the element count, provided every
reference of the input state stays inside the element list. -/
theorem bushyAttempt_preserves (adj : ℕ → ℕ → Bool) (el el' : List (ℤ × ℤ))
    (p : ℕ) (hb : ∀ j ∈ refsOf el, j < el.length)
    (h : bushyAttempt adj el p = some el') :
    basesOf el' = basesOf el ∧ refsOf el' = refsOf el ∧ el'.length = el.length := by
  suffices hs : slotsOf el' = slotsOf el ∧ el'.length = el.length by
    exact ⟨by simp only [basesOf]; rw [hs.1],
      by simp only [refsOf]; rw [hs.1], hs.2⟩
  simp only [bushyAttempt] at h
  cases hel : el[p]? with
  | none => rw [hel] at h; cases h
  | some j =>
    rw [hel] at h
    have hp : p < el.length := (List.getElem?_eq_some.mp hel).1
    have hgd : el.getD p (0, 0) = j := by
      rw [List.getD_eq_getElem?_getD, hel]; rfl
    dsimp only at h
    by_cases h1 : j.1 < 0
    · rw [if_pos h1] at h
      have hcf : (convertIndex j.1).toNat < el.length := by
        apply hb
        simp only [refsOf]
        apply Multiset.mem_bind.mpr
        refine ⟨j.1, ?_, ?_⟩
        · have hm := (slot_mem_slotsOf el p hp).1
          rw [hgd] at hm; exact hm
        · rw [refPart, if_pos h1]; exact Multiset.mem_singleton_self _
      by_cases h2 : hasEdgeBetweenSubtrees adj el j.2
          (getSlot el (convertIndex j.1).toNat true) = true
      · rw [if_pos h2] at h
        have heq := Option.some.inj h
        rw [← heq]
        exact ⟨slotsOf_swapSlots el _ p false true hcf hp,
          length_swapSlots el _ p false true⟩
      · rw [if_neg h2] at h
        by_cases h3 : hasEdgeBetweenSubtrees adj el j.2
            (getSlot el (convertIndex j.1).toNat false) = true
        · rw [if_pos h3] at h
          have heq := Option.some.inj h
          rw [← heq]
          exact ⟨slotsOf_swapSlots el _ p true true hcf hp,
            length_swapSlots el _ p true true⟩
        · rw [if_neg h3] at h; cases h
    · rw [if_neg h1] at h
      by_cases h1' : j.2 < 0
      · rw [if_pos h1'] at h
        have hcf : (convertIndex j.2).toNat < el.length := by
          apply hb
          simp only [refsOf]
          apply Multiset.mem_bind.mpr
          refine ⟨j.2, ?_, ?_⟩
          · have hm := (slot_mem_slotsOf el p hp).2
            rw [hgd] at hm; exact hm
          · rw [refPart, if_pos h1']; exact Multiset.mem_singleton_self _
        by_cases h2 : hasEdgeBetweenSubtrees adj el j.1
            (getSlot el (convertIndex j.2).toNat true) = true
        · rw [if_pos h2] at h
          have heq := Option.some.inj h
          rw [← heq]
          exact ⟨slotsOf_swapSlots el _ p false false hcf hp,
            length_swapSlots el _ p false false⟩
        · rw [if_neg h2] at h
          by_cases h3 : hasEdgeBetweenSubtrees adj el j.1
              (getSlot el (convertIndex j.2).toNat false) = true
          · rw [if_pos h3] at h
            have heq := Option.some.inj h
            rw [← heq]
            exact ⟨slotsOf_swapSlots el _ p true false hcf hp,
              length_swapSlots el _ p true false⟩
          · rw [if_neg h3] at h; cases h
      · rw [if_neg h1'] at h; cases h

/-! ### One Kruskal step preserves the construction invariant -/

/-- One Kruskal step (`twopo.c:502-533`) keeps the construction invariant,
keeps every already-equal pair of roots equal, and makes the roots of the
processed edge equal (or there was at most one sub-tree to begin with). -/
theorem kruskalStep_spec (N : ℕ) (st : KrState) (e : ℕ × ℕ)
    (he1 : e.1 < N) (he2 : e.2 < N) (h : KInv N st) :
    KInv N (kruskalStep N st e) ∧
    (∀ i, i < N → ∀ j, j < N →
      find_root st.parent N i = find_root st.parent N j →
      find_root (kruskalStep N st e).parent N i =
        find_root (kruskalStep N st e).parent N j) ∧
    find_root (kruskalStep N st e).parent N e.1 =
      find_root (kruskalStep N st e).parent N e.2 := by
  obtain ⟨hp1, h1N, k1, hk1, hit1⟩ := find_root_spec N st.parent h.uf e.1 he1
  obtain ⟨hp2, h2N, k2, hk2, hit2⟩ := find_root_spec N st.parent h.uf e.2 he2
  by_cases hns : st.numSubtrees ≤ 1
  · have hst : kruskalStep N st e = st := by
      simp only [kruskalStep]; rw [if_pos hns]
    rw [hst]
    refine ⟨h, fun i _ j _ hij => hij, ?_⟩
    have hcard : (RootsOf st.parent N).card ≤ 1 := by rw [← h.nsub]; exact hns
    have hm1 : find_root st.parent N e.1 ∈ RootsOf st.parent N := by
      simp only [RootsOf, Finset.mem_filter, Finset.mem_range]
      exact ⟨h1N, hp1⟩
    have hm2 : find_root st.parent N e.2 ∈ RootsOf st.parent N := by
      simp only [RootsOf, Finset.mem_filter, Finset.mem_range]
      exact ⟨h2N, hp2⟩
    exact Finset.card_le_one.mp hcard _ hm1 _ hm2
  set r1 := find_root st.parent N e.1 with hr1def
  set r2 := find_root st.parent N e.2 with hr2def
  by_cases hrr : r1 = r2
  · have hst : kruskalStep N st e = st := by
      simp only [kruskalStep]
      rw [if_neg hns, ← hr1def, ← hr2def, if_pos hrr]
    rw [hst]
    exact ⟨h, fun i _ j _ hij => hij, hrr⟩
  set a := if st.weight r2 > st.weight r1 then r2 else r1 with hadef
  set b := if st.weight r2 > st.weight r1 then r1 else r2 with hbdef
  have hcases : (a = r2 ∧ b = r1) ∨ (a = r1 ∧ b = r2) := by
    rw [hadef, hbdef]
    by_cases hw : st.weight r2 > st.weight r1
    · rw [if_pos hw, if_pos hw]; exact Or.inl ⟨rfl, rfl⟩
    · rw [if_neg hw, if_neg hw]; exact Or.inr ⟨rfl, rfl⟩
  have hpa : st.parent a = a := by
    rcases hcases with ⟨ha, _⟩ | ⟨ha, _⟩
    · rw [ha]; exact hp2
    · rw [ha]; exact hp1
  have hpb : st.parent b = b := by
    rcases hcases with ⟨_, hb⟩ | ⟨_, hb⟩
    · rw [hb]; exact hp1
    · rw [hb]; exact hp2
  have haN : a < N := by
    rcases hcases with ⟨ha, _⟩ | ⟨ha, _⟩
    · rw [ha]; exact h2N
    · rw [ha]; exact h1N
  have hbN : b < N := by
    rcases hcases with ⟨_, hb⟩ | ⟨_, hb⟩
    · rw [hb]; exact h1N
    · rw [hb]; exact h2N
  have hab : a ≠ b := by
    rcases hcases with ⟨ha, hb⟩ | ⟨ha, hb⟩
    · rw [ha, hb]; exact fun hc => hrr hc.symm
    · rw [ha, hb]; exact hrr
  have haR : a ∈ RootsOf st.parent N := by
    simp only [RootsOf, Finset.mem_filter, Finset.mem_range]; exact ⟨haN, hpa⟩
  have hbR : b ∈ RootsOf st.parent N := by
    simp only [RootsOf, Finset.mem_filter, Finset.mem_range]; exact ⟨hbN, hpb⟩
  have haRm : a ∈ (RootsOf st.parent N).erase b := Finset.mem_erase.mpr ⟨hab, haR⟩
  set parent' : ℕ → ℕ := fun i => if i = b then a else st.parent i with hpar
  set subt' : ℕ → ℤ := fun i =>
    if i = a then convertIndex (st.elements.length : ℤ) else st.subtrees i with hsubt
  have hstep : kruskalStep N st e =
      { parent := parent'
        weight := fun i => if i = a then st.weight a + st.weight b else st.weight i
        subtrees := subt'
        elements := st.elements ++ [(st.subtrees a, st.subtrees b)]
        numSubtrees := st.numSubtrees - 1 } := by
    simp only [kruskalStep]
    rw [if_neg hns, ← hr1def, ← hr2def, if_neg hrr, ← hadef, ← hbdef, hpa, hpar,
      hsubt]
  obtain ⟨huf', hfr'⟩ := uf_update N st.parent h.uf a b haN hbN hab hpa hpb
  rw [← hpar] at huf' hfr'
  have hroots' : RootsOf parent' N = (RootsOf st.parent N).erase b := by
    ext r
    simp only [RootsOf, Finset.mem_erase, Finset.mem_filter, Finset.mem_range, hpar]
    constructor
    · rintro ⟨hrN, hroot⟩
      by_cases hbq : r = b
      · rw [if_pos hbq] at hroot
        exact absurd (hbq ▸ hroot) hab
      · rw [if_neg hbq] at hroot
        exact ⟨hbq, hrN, hroot⟩
    · rintro ⟨hbq, hrN, hroot⟩
      refine ⟨hrN, ?_⟩
      rw [if_neg hbq]
      exact hroot
  have hdisj : Disjoint (classOf st.parent N a) (classOf st.parent N b) := by
    rw [Finset.disjoint_left]
    intro i hia hib
    simp only [classOf, Finset.mem_filter, Finset.mem_range] at hia hib
    exact hab (hia.2.symm.trans hib.2)
  have hclassA : classOf parent' N a =
      (classOf st.parent N a).disjUnion (classOf st.parent N b) hdisj := by
    ext i
    simp only [classOf, Finset.mem_filter, Finset.mem_range, Finset.mem_disjUnion]
    constructor
    · rintro ⟨hiN, hfi⟩
      rw [hfr' i hiN] at hfi
      by_cases hF : find_root st.parent N i = b
      · exact Or.inr ⟨hiN, hF⟩
      · rw [if_neg hF] at hfi
        exact Or.inl ⟨hiN, hfi⟩
    · rintro (⟨hiN, hF⟩ | ⟨hiN, hF⟩)
      · refine ⟨hiN, ?_⟩
        rw [hfr' i hiN, hF, if_neg hab]
      · refine ⟨hiN, ?_⟩
        rw [hfr' i hiN, hF, if_pos rfl]
  have hclassO : ∀ r, r ≠ a → r ≠ b →
      classOf parent' N r = classOf st.parent N r := by
    intro r hra hrb
    ext i
    simp only [classOf, Finset.mem_filter, Finset.mem_range]
    constructor
    · rintro ⟨hiN, hfi⟩
      refine ⟨hiN, ?_⟩
      rw [hfr' i hiN] at hfi
      by_cases hF : find_root st.parent N i = b
      · rw [if_pos hF] at hfi
        exact absurd hfi.symm hra
      · rw [if_neg hF] at hfi
        exact hfi
    · rintro ⟨hiN, hfi⟩
      refine ⟨hiN, ?_⟩
      rw [hfr' i hiN]
      have hF : find_root st.parent N i ≠ b := by rw [hfi]; exact hrb
      rw [if_neg hF]
      exact hfi
  have hlenE : (st.elements ++ [(st.subtrees a, st.subtrees b)]).length =
      st.elements.length + 1 := by
    rw [List.length_append]
    rfl
  have hsubtA : subt' a = convertIndex (st.elements.length : ℤ) := by
    rw [hsubt]; simp
  have hsubtO : ∀ r, r ≠ a → subt' r = st.subtrees r := by
    intro r hra
    rw [hsubt]; dsimp only; rw [if_neg hra]
  rw [hstep]
  refine ⟨⟨?_, ?_, ?_, ?_, ?_, ?_, ?_, ?_⟩, ?_, ?_⟩
  · exact huf'
  · show st.numSubtrees - 1 = (RootsOf parent' N).card
    rw [hroots', Finset.card_erase_of_mem hbR, ← h.nsub]
  · show (st.elements ++ [(st.subtrees a, st.subtrees b)]).length +
      (st.numSubtrees - 1) = N
    have hE := h.elen
    rw [hlenE]
    omega
  · show OrderOK N (st.elements ++ [(st.subtrees a, st.subtrees b)])
    intro i hi
    rw [hlenE] at hi
    by_cases hlt : i < st.elements.length
    · have hg : (st.elements ++ [(st.subtrees a, st.subtrees b)]).getD i (0, 0) =
          st.elements.getD i (0, 0) := List.getD_append _ _ _ i hlt
      rw [hg]
      exact h.order i hlt
    · have hieq : i = st.elements.length := by omega
      subst hieq
      have hg : (st.elements ++ [(st.subtrees a, st.subtrees b)]).getD
          st.elements.length (0, 0) = (st.subtrees a, st.subtrees b) := by
        rw [List.getD_append_right _ _ _ _ (le_refl _)]
        simp
      rw [hg]
      exact ⟨h.slots a haR, h.slots b hbR⟩
  · show ∀ r ∈ RootsOf parent' N,
      SlotOrdOK N (st.elements ++ [(st.subtrees a, st.subtrees b)]).length (subt' r)
    intro r hr
    rw [hroots'] at hr
    obtain ⟨hrb, hrR⟩ := Finset.mem_erase.mp hr
    rw [hlenE]
    by_cases hra : r = a
    · rw [hra, hsubtA]
      exact Or.inr ⟨convertIndex_lt_zero _, by rw [convertIndex_invol_toNat]; omega⟩
    · rw [hsubtO r hra]
      exact SlotOrdOK_mono N (Nat.le_succ _) (h.slots r hrR)
  · show ∀ r ∈ RootsOf parent' N, ∃ L : List ℕ,
      baserelsOfSubtree (st.elements ++ [(st.subtrees a, st.subtrees b)])
        ((st.elements ++ [(st.subtrees a, st.subtrees b)]).length + 1) (subt' r) =
        some L ∧ (↑L : Multiset ℕ) = (classOf parent' N r).val
    intro r hr
    rw [hroots'] at hr
    obtain ⟨hrb, hrR⟩ := Finset.mem_erase.mp hr
    by_cases hra : r = a
    · obtain ⟨La, hLa, hLaval⟩ := h.decode a haR
      obtain ⟨Lb, hLb, hLbval⟩ := h.decode b hbR
      refine ⟨La ++ Lb, ?_, ?_⟩
      · rw [hra, hsubtA]
        rw [hlenE, baserelsOfSubtree,
          if_neg (convertIndex_natCast_neg st.elements.length),
          convertIndex_invol_toNat, List.getElem?_concat_length]
        dsimp only
        rw [baserels_append st.elements [(st.subtrees a, st.subtrees b)] _ _ _ hLa,
          baserels_append st.elements [(st.subtrees a, st.subtrees b)] _ _ _ hLb]
      · rw [hra, hclassA]
        have hval : ((classOf st.parent N a).disjUnion (classOf st.parent N b)
            hdisj).val = (classOf st.parent N a).val + (classOf st.parent N b).val := by
          simp [Finset.disjUnion]
        rw [hval, ← hLaval, ← hLbval]
        rfl
    · obtain ⟨L, hL, hLval⟩ := h.decode r hrR
      refine ⟨L, ?_, ?_⟩
      · rw [hsubtO r hra]
        rw [hlenE]
        exact baserels_fuel_le _ (st.elements.length + 1) (st.elements.length + 1 + 1)
          _ _ (by omega) (baserels_append _ _ _ _ _ hL)
      · rw [hclassO r hra hrb]
        exact hLval
  · show basesOf (st.elements ++ [(st.subtrees a, st.subtrees b)]) +
      Finset.sum (RootsOf parent' N) (fun r => basePart (subt' r)) = Multiset.range N
    rw [basesOf_append, basesOf_pair, hroots']
    have hsum1 : Finset.sum ((RootsOf st.parent N).erase b)
        (fun r => basePart (subt' r)) =
        basePart (subt' a) + Finset.sum (((RootsOf st.parent N).erase b).erase a)
          (fun r => basePart (subt' r)) := (Finset.add_sum_erase _ _ haRm).symm
    have hsa0 : basePart (subt' a) = 0 := by
      rw [hsubtA, basePart, if_neg (convertIndex_natCast_neg _)]
    have hrest : Finset.sum (((RootsOf st.parent N).erase b).erase a)
        (fun r => basePart (subt' r)) =
        Finset.sum (((RootsOf st.parent N).erase b).erase a)
          (fun r => basePart (st.subtrees r)) := by
      refine Finset.sum_congr rfl ?_
      intro r hrmem
      rw [hsubt]; dsimp only
      rw [if_neg (Finset.mem_erase.mp hrmem).1]
    rw [hsum1, hsa0, hrest, zero_add, ← h.bases,
      ← Finset.add_sum_erase _ (fun r => basePart (st.subtrees r)) hbR,
      ← Finset.add_sum_erase _ (fun r => basePart (st.subtrees r)) haRm]
    abel
  · show refsOf (st.elements ++ [(st.subtrees a, st.subtrees b)]) +
      Finset.sum (RootsOf parent' N) (fun r => refPart (subt' r)) =
      Multiset.range (st.elements ++ [(st.subtrees a, st.subtrees b)]).length
    rw [refsOf_append, refsOf_pair, hroots', hlenE]
    have hsum1 : Finset.sum ((RootsOf st.parent N).erase b)
        (fun r => refPart (subt' r)) =
        refPart (subt' a) + Finset.sum (((RootsOf st.parent N).erase b).erase a)
          (fun r => refPart (subt' r)) := (Finset.add_sum_erase _ _ haRm).symm
    have hral : refPart (subt' a) = {st.elements.length} := by
      rw [hsubtA, refPart, if_pos (convertIndex_lt_zero _), convertIndex_invol_toNat]
    have hrest : Finset.sum (((RootsOf st.parent N).erase b).erase a)
        (fun r => refPart (subt' r)) =
        Finset.sum (((RootsOf st.parent N).erase b).erase a)
          (fun r => refPart (st.subtrees r)) := by
      refine Finset.sum_congr rfl ?_
      intro r hrmem
      rw [hsubt]; dsimp only
      rw [if_neg (Finset.mem_erase.mp hrmem).1]
    rw [hsum1, hral, hrest, Multiset.range_succ, ← Multiset.singleton_add, ← h.refs,
      ← Finset.add_sum_erase _ (fun r => refPart (st.subtrees r)) hbR,
      ← Finset.add_sum_erase _ (fun r => refPart (st.subtrees r)) haRm]
    abel
  · intro i hiN j hjN hij
    show find_root parent' N i = find_root parent' N j
    rw [hfr' i hiN, hfr' j hjN, hij]
  · show find_root parent' N e.1 = find_root parent' N e.2
    rw [hfr' e.1 he1, hfr' e.2 he2, ← hr1def, ← hr2def]
    rcases hcases with ⟨ha2, hb1⟩ | ⟨ha1, hb2⟩
    · rw [if_pos hb1.symm]
      have hne : ¬ r2 = b := fun hc => hab (ha2.trans hc)
      rw [if_neg hne]
      exact ha2
    · have hne : ¬ r1 = b := fun hc => hab (ha1.trans hc)
      rw [if_neg hne, if_pos hb2.symm]
      exact ha1.symm

/-! ### Folding the Kruskal loop over the whole edge list -/

theorem krFold_pres (N : ℕ) :
    ∀ (edges : List (ℕ × ℕ)) (st : KrState), KInv N st →
      (∀ f ∈ edges, f.1 < N ∧ f.2 < N) →
      ∀ i, i < N → ∀ j, j < N →
        find_root st.parent N i = find_root st.parent N j →
        find_root (edges.foldl (kruskalStep N) st).parent N i =
          find_root (edges.foldl (kruskalStep N) st).parent N j := by
  intro edges
  induction edges with
  | nil => intro st _ _ i _ j _ hij; exact hij
  | cons e es ih =>
    intro st hK hval i hiN j hjN hij
    rw [List.foldl_cons]
    obtain ⟨hK', hpres, _⟩ :=
      kruskalStep_spec N st e (hval e (by simp)).1 (hval e (by simp)).2 hK
    exact ih (kruskalStep N st e) hK' (fun f hf => hval f (by simp [hf])) i hiN j hjN
      (hpres i hiN j hjN hij)

theorem krFold_spec (N : ℕ) :
    ∀ (edges : List (ℕ × ℕ)) (st : KrState), KInv N st →
      (∀ f ∈ edges, f.1 < N ∧ f.2 < N) →
      KInv N (edges.foldl (kruskalStep N) st) ∧
      ∀ f ∈ edges,
        find_root (edges.foldl (kruskalStep N) st).parent N f.1 =
          find_root (edges.foldl (kruskalStep N) st).parent N f.2 := by
  intro edges
  induction edges with
  | nil => intro st hK _; exact ⟨hK, fun f hf => absurd hf (List.not_mem_nil f)⟩
  | cons e es ih =>
    intro st hK hval
    rw [List.foldl_cons]
    obtain ⟨hK', hpres, hedge⟩ :=
      kruskalStep_spec N st e (hval e (by simp)).1 (hval e (by simp)).2 hK
    obtain ⟨hKf, hall⟩ := ih (kruskalStep N st e) hK' (fun f hf => hval f (by simp [hf]))
    refine ⟨hKf, ?_⟩
    intro f hf
    rcases List.mem_cons.mp hf with heq | hf'
    · rw [heq]
      exact krFold_pres N es (kruskalStep N st e) hK'
        (fun g hg => hval g (by simp [hg]))
        e.1 (hval e (by simp)).1 e.2 (hval e (by simp)).2 hedge
    · exact hall f hf'

/-- On a connected join graph every node ends up under a single root. -/
theorem roots_single (N : ℕ) (hN : 0 < N) (parent : ℕ → ℕ) (huf : UFInv N parent)
    (edges : List (ℕ × ℕ)) (hval : ∀ f ∈ edges, f.1 < N ∧ f.2 < N)
    (hsame : ∀ f ∈ edges, find_root parent N f.1 = find_root parent N f.2)
    (hconn : CutConnected edges N) :
    RootsOf parent N = {find_root parent N 0} ∧
    ∀ i, i < N → find_root parent N i = find_root parent N 0 := by
  obtain ⟨hp0, h0N, -⟩ := find_root_spec N parent huf 0 hN
  set r0 := find_root parent N 0 with hr0
  set S := classOf parent N r0 with hS
  have hsub : S ∈ (Finset.range N).powerset := by
    rw [Finset.mem_powerset, hS]
    intro i hi
    simp only [classOf, Finset.mem_filter] at hi
    exact hi.1
  have h0S : (0 : ℕ) ∈ S := by
    rw [hS]
    simp only [classOf, Finset.mem_filter, Finset.mem_range]
    exact ⟨hN, trivial⟩
  have hSfull : S = Finset.range N := by
    by_contra hne
    obtain ⟨f, hfmem, hcross⟩ := hconn S hsub ⟨0, h0S⟩ hne
    have hmemS : ∀ x, x < N → ∀ y, y < N →
        find_root parent N x = find_root parent N y → x ∈ S → y ∈ S := by
      intro x hx y hy hxy hxS
      rw [hS] at hxS ⊢
      simp only [classOf, Finset.mem_filter, Finset.mem_range] at hxS ⊢
      exact ⟨hy, by rw [← hxy]; exact hxS.2⟩
    rcases hcross with ⟨h1S, h2S⟩ | ⟨h1S, h2S⟩
    · exact h2S (hmemS f.1 (hval f hfmem).1 f.2 (hval f hfmem).2 (hsame f hfmem) h1S)
    · exact h1S (hmemS f.2 (hval f hfmem).2 f.1 (hval f hfmem).1
        (hsame f hfmem).symm h2S)
  have hall : ∀ i, i < N → find_root parent N i = r0 := by
    intro i hi
    have hiS : i ∈ S := hSfull ▸ Finset.mem_range.mpr hi
    rw [hS] at hiS
    simp only [classOf, Finset.mem_filter] at hiS
    exact hiS.2
  refine ⟨?_, hall⟩
  ext r
  simp only [RootsOf, Finset.mem_filter, Finset.mem_range, Finset.mem_singleton]
  constructor
  · rintro ⟨hrN, hroot⟩
    have hfr := hall r hrN
    rw [find_root_of_root N parent r hroot] at hfr
    exact hfr
  · rintro rfl
    exact ⟨h0N, hp0⟩

/-- Under the build-order property no slot references the last element or
beyond. -/
theorem orderOK_last_not_ref (N : ℕ) (el : List (ℤ × ℤ)) (h : OrderOK N el)
    (n : ℕ) (hn : el.length ≤ n + 1) : n ∉ refsOf el := by
  intro hmem
  simp only [refsOf] at hmem
  obtain ⟨v, hv, hvref⟩ := Multiset.mem_bind.mp hmem
  rw [refPart] at hvref
  by_cases hneg : v < 0
  · rw [if_pos hneg, Multiset.mem_singleton] at hvref
    obtain ⟨c, hc, hvc⟩ := (mem_slotsOf_iff v el).mp hv
    obtain ⟨i, hi, hci⟩ := List.getElem_of_mem hc
    have hgd : el.getD i (0, 0) = c := by
      rw [List.getD_eq_getElem el (0, 0) hi, hci]
    obtain ⟨h1, h2⟩ := h i hi
    rw [hgd] at h1 h2
    rcases hvc with hv1 | hv2
    · rcases h1 with ⟨hge, -⟩ | ⟨-, hlt⟩
      · omega
      · simp only [convertIndex] at hlt hvref
        omega
    · rcases h2 with ⟨hge, -⟩ | ⟨-, hlt⟩
      · omega
      · simp only [convertIndex] at hlt hvref
        omega
  · rw [if_neg hneg] at hvref
    exact absurd hvref (Multiset.not_mem_zero n)

/-- C7 (amended): for every edge list with endpoints among the `N` relations
whose join graph is CONNECTED (not merely covering), the Kruskal-style
bushy encoder (`encodeBushyTree`, `twopo.c:464-538`) writes exactly `N - 1`
join elements whose slots satisfy the strict build order (every child is a
base relation or an earlier element), hence contain no reference cycle;
collecting the base-relation leaves over all elements yields exactly the
`N` units, each exactly once; every element except the last is referenced
exactly once, and decoding from the final element recovers exactly the `N`
units.  Bushy neighbor moves (`neighbordStateBushy`, `twopo.c:989-1051`)
preserve the leaf multiset, the reference multiset and the element count of
any state whose references stay in range — but, as
`bushy_counterexample` shows, not the strict build order itself. -/
theorem bushy_encoding (edges : List (ℕ × ℕ)) (N : ℕ)
    (hval : ∀ f ∈ edges, f.1 < N ∧ f.2 < N)
    (hconn : CutConnected edges N) (hN : 2 ≤ N) :
    ((encodeBushyTree edges N).length = N - 1 ∧
     OrderOK N (encodeBushyTree edges N) ∧
     AcyclicEl (encodeBushyTree edges N) ∧
     basesOf (encodeBushyTree edges N) = Multiset.range N ∧
     refsOf (encodeBushyTree edges N) = Multiset.range (N - 2) ∧
     ∃ L : List ℕ,
       baserelsOfSubtree (encodeBushyTree edges N)
         ((encodeBushyTree edges N).length + 1) (convertIndex ((N - 2 : ℕ) : ℤ)) =
         some L ∧ (↑L : Multiset ℕ) = Multiset.range N) ∧
    ∀ (adj : ℕ → ℕ → Bool) (el el' : List (ℤ × ℤ)) (p : ℕ),
      (∀ j ∈ refsOf el, j < el.length) → bushyAttempt adj el p = some el' →
      basesOf el' = basesOf el ∧ refsOf el' = refsOf el ∧ el'.length = el.length := by
  refine ⟨?_, fun adj el el' p hb hmv => bushyAttempt_preserves adj el el' p hb hmv⟩
  set stF := edges.foldl (kruskalStep N) (krInit N) with hstF
  obtain ⟨hK, hsame⟩ := krFold_spec N edges (krInit N) (krInit_inv N) hval
  rw [← hstF] at hK hsame
  obtain ⟨hRsing, hallr⟩ :=
    roots_single N (by omega) stF.parent hK.uf edges hval hsame hconn
  set r0 := find_root stF.parent N 0 with hr0
  have hel : encodeBushyTree edges N = stF.elements := rfl
  rw [hel]
  have hcard : (RootsOf stF.parent N).card = 1 := by
    rw [hRsing]; exact Finset.card_singleton _
  have hns : stF.numSubtrees = 1 := by rw [hK.nsub, hcard]
  have hlen : stF.elements.length = N - 1 := by
    have hE := hK.elen; omega
  have horder : OrderOK N stF.elements := hK.order
  have hr0R : r0 ∈ RootsOf stF.parent N := by
    rw [hRsing]; exact Finset.mem_singleton_self _
  have hrefs : refsOf stF.elements + refPart (stF.subtrees r0) =
      Multiset.range stF.elements.length := by
    have hx := hK.refs
    rw [hRsing, Finset.sum_singleton] at hx
    exact hx
  have hbases : basesOf stF.elements + basePart (stF.subtrees r0) =
      Multiset.range N := by
    have hx := hK.bases
    rw [hRsing, Finset.sum_singleton] at hx
    exact hx
  have hnotref : (N - 2 : ℕ) ∉ refsOf stF.elements :=
    orderOK_last_not_ref N stF.elements horder (N - 2) (by omega)
  have hneg : stF.subtrees r0 < 0 := by
    by_contra hge
    push_neg at hge
    have hz : refPart (stF.subtrees r0) = 0 := by
      rw [refPart, if_neg (by omega)]
    rw [hz, add_zero] at hrefs
    apply hnotref
    rw [hrefs, hlen]
    exact Multiset.mem_range.mpr (by omega)
  have hrp : refPart (stF.subtrees r0) = {(convertIndex (stF.subtrees r0)).toNat} := by
    rw [refPart, if_pos hneg]
  set m := (convertIndex (stF.subtrees r0)).toNat with hm
  have hmval : m = N - 2 := by
    by_contra hm2
    have hmem : (N - 2 : ℕ) ∈ Multiset.range stF.elements.length := by
      rw [hlen]; exact Multiset.mem_range.mpr (by omega)
    rw [← hrefs, hrp] at hmem
    rcases Multiset.mem_add.mp hmem with hmem' | hmem'
    · exact hnotref hmem'
    · rw [Multiset.mem_singleton] at hmem'
      exact hm2 hmem'.symm
  have hsub0 : stF.subtrees r0 = convertIndex ((N - 2 : ℕ) : ℤ) := by
    rw [← hmval, hm]
    simp only [convertIndex]
    omega
  have hrefs2 : refsOf stF.elements = Multiset.range (N - 2) := by
    have hrp2 : refPart (stF.subtrees r0) = {(N - 2 : ℕ)} := by rw [hrp, hmval]
    have h1 : refsOf stF.elements + {(N - 2 : ℕ)} = Multiset.range (N - 1) := by
      rw [← hrp2, hrefs, hlen]
    have h2 : Multiset.range (N - 1) = {(N - 2 : ℕ)} + Multiset.range (N - 2) := by
      have hNeq : N - 1 = (N - 2) + 1 := by omega
      rw [hNeq, Multiset.range_succ, Multiset.singleton_add]
    rw [h2] at h1
    have h3 : refsOf stF.elements + {(N - 2 : ℕ)} =
        Multiset.range (N - 2) + {(N - 2 : ℕ)} := by
      rw [h1, add_comm]
    exact add_right_cancel h3
  have hbp0 : basePart (stF.subtrees r0) = 0 := by
    rw [basePart, if_neg (by omega)]
  have hbases2 : basesOf stF.elements = Multiset.range N := by
    rw [← hbases, hbp0, add_zero]
  obtain ⟨L, hL, hLval⟩ := hK.decode r0 hr0R
  have hclassFull : classOf stF.parent N r0 = Finset.range N := by
    ext i
    simp only [classOf, Finset.mem_filter, Finset.mem_range]
    constructor
    · exact fun hi => hi.1
    · intro hi
      exact ⟨hi, hallr i hi⟩
  have hdec : baserelsOfSubtree stF.elements (stF.elements.length + 1)
      (convertIndex ((N - 2 : ℕ) : ℤ)) = some L := by
    rw [← hsub0]; exact hL
  have hLrange : (↑L : Multiset ℕ) = Multiset.range N := by
    rw [hLval, hclassFull, Finset.range_val]
  exact ⟨hlen, horder, orderOK_acyclic N _ horder, hbases2, hrefs2, L, hdec, hLrange⟩

/-- Witness for `bushy_encoding`: the path `0 - 1 - 2` over three
relations. -/
theorem bushy_encoding_witness :
    (∀ f ∈ ([(0, 1), (1, 2)] : List (ℕ × ℕ)), f.1 < 3 ∧ f.2 < 3) ∧
    CutConnected [(0, 1), (1, 2)] 3 ∧ (2 ≤ 3) ∧
    (((encodeBushyTree [(0, 1), (1, 2)] 3).length = 3 - 1 ∧
      OrderOK 3 (encodeBushyTree [(0, 1), (1, 2)] 3) ∧
      AcyclicEl (encodeBushyTree [(0, 1), (1, 2)] 3) ∧
      basesOf (encodeBushyTree [(0, 1), (1, 2)] 3) = Multiset.range 3 ∧
      refsOf (encodeBushyTree [(0, 1), (1, 2)] 3) = Multiset.range (3 - 2) ∧
      ∃ L : List ℕ,
        baserelsOfSubtree (encodeBushyTree [(0, 1), (1, 2)] 3)
          ((encodeBushyTree [(0, 1), (1, 2)] 3).length + 1)
          (convertIndex ((3 - 2 : ℕ) : ℤ)) =
          some L ∧ (↑L : Multiset ℕ) = Multiset.range 3) ∧
     ∀ (adj : ℕ → ℕ → Bool) (el el' : List (ℤ × ℤ)) (p : ℕ),
       (∀ j ∈ refsOf el, j < el.length) → bushyAttempt adj el p = some el' →
       basesOf el' = basesOf el ∧ refsOf el' = refsOf el ∧ el'.length = el.length) :=
  ⟨by decide, by decide, by decide,
    bushy_encoding [(0, 1), (1, 2)] 3 (by decide) (by decide) (by decide)⟩

end LJQO
